import Mathlib

/-!
Verification of the `go-did-web` repository: a shallow embedding of the
`did:web` identifier codec (`pkg/didweb`), the relevant parts of Go's
`net/url` package that the codec calls, and the payment-gated registration
state machine (`pkg/storage/didstorage` and `pkg/server`).

Go strings are byte strings; we model them as `List Char` where every
element stands for one byte (all concrete inputs in this development are
ASCII).  Escaping and unescaping therefore work byte by byte, exactly as
Go's `net/url` does.
-/

namespace GoDidWeb

/-- A Go string, modelled as a list of byte-sized characters. -/
abbrev GoStr := List Char

/-! ## Basic `strings` package operations -/

/-- Go `strings.Split(s, sep)` for a one-byte separator: splits around every
occurrence of `c`; the empty string yields `[[]]`. -/
def splitOnChar (c : Char) : GoStr → List GoStr
  | [] => [[]]
  | x :: xs =>
    if x = c then [] :: splitOnChar c xs
    else
      match splitOnChar c xs with
      | [] => [[x]]
      | h :: t => (x :: h) :: t

/-- Go `strings.Join(parts, sep)` for a one-byte separator. -/
def joinWith (c : Char) : List GoStr → GoStr
  | [] => []
  | [x] => x
  | x :: xs => x ++ c :: joinWith c xs

/-- Go `strings.TrimLeft(s, string(c))`. -/
def trimLeftChar (c : Char) : GoStr → GoStr
  | [] => []
  | x :: xs => if x = c then trimLeftChar c xs else x :: xs

/-- Go `strings.Trim(s, string(c))`: removes leading and trailing `c` bytes. -/
def trimChar (c : Char) (s : GoStr) : GoStr :=
  (trimLeftChar c (trimLeftChar c s.reverse).reverse)

/-- ASCII lower-casing of one byte, as Go does for ASCII letters. -/
def asciiLower (c : Char) : Char :=
  if 'A' ≤ c ∧ c ≤ 'Z' then Char.ofNat (c.toNat + 32) else c

/-- Go `strings.EqualFold`, restricted to ASCII folding.  (Go additionally
folds a handful of non-ASCII runes; those lie outside the byte-level model
and never arise for the ASCII literals this repository compares against.) -/
def equalFold (s t : GoStr) : Bool :=
  s.map asciiLower = t.map asciiLower

/-- Go `strings.Index(s, string(c)) >= 0`. -/
def containsChar (s : GoStr) (c : Char) : Bool := s.contains c

/-! ## Decimal numbers: `strconv.Atoi` and `fmt.Sprintf("%d", _)` -/

def isDigit (c : Char) : Bool := '0' ≤ c ∧ c ≤ '9'

def digitsToNat (s : GoStr) : Nat :=
  s.foldl (fun acc c => 10 * acc + (c.toNat - '0'.toNat)) 0

/-- Go `strconv.Atoi`: optional sign, at least one digit, nothing else,
and the value must fit in a signed 64-bit int. -/
def goAtoi (s : GoStr) : Option Int :=
  let core : GoStr → Bool → Option Int := fun ds neg =>
    if ds = [] ∨ ¬ ds.all isDigit then none
    else
      let n : Int := (digitsToNat ds : Int)
      let v : Int := if neg then -n else n
      if v < -(2 ^ 63) ∨ (2 ^ 63 - 1) < v then none else some v
  match s with
  | [] => none
  | '+' :: rest => core rest false
  | '-' :: rest => core rest true
  | _ => core s false

/-- Decimal digits of a natural number (used for `fmt.Sprintf("%d", port)`
with a positive port). -/
def natDec (n : Nat) : GoStr := Nat.toDigits 10 n

/-! ## Hex digits -/

def isHexDigit (c : Char) : Bool :=
  ('0' ≤ c ∧ c ≤ '9') ∨ ('a' ≤ c ∧ c ≤ 'f') ∨ ('A' ≤ c ∧ c ≤ 'F')

/-- Value of a hex digit (Go `unhex`); garbage on non-hex input, guarded by
`isHexDigit` at every use site. -/
def unhex (c : Char) : Nat :=
  if '0' ≤ c ∧ c ≤ '9' then c.toNat - '0'.toNat
  else if 'a' ≤ c ∧ c ≤ 'f' then c.toNat - 'a'.toNat + 10
  else if 'A' ≤ c ∧ c ≤ 'F' then c.toNat - 'A'.toNat + 10
  else 0

def upperHexDigit (n : Nat) : Char :=
  if n < 10 then Char.ofNat ('0'.toNat + n) else Char.ofNat ('A'.toNat + (n - 10))

def lowerHexDigit (n : Nat) : Char :=
  if n < 10 then Char.ofNat ('0'.toNat + n) else Char.ofNat ('a'.toNat + (n - 10))

/-! ## `net/url` escaping

Faithful to Go's `shouldEscape`, `escape` and `unescape` with the encoding
modes the repository exercises. -/

inductive EscMode where
  | query | path | host | zone | userPass | fragment
  deriving DecidableEq

def isAlphaNum (c : Char) : Bool :=
  ('a' ≤ c ∧ c ≤ 'z') ∨ ('A' ≤ c ∧ c ≤ 'Z') ∨ ('0' ≤ c ∧ c ≤ '9')

/-- Go `net/url.shouldEscape`. -/
def shouldEscape (c : Char) (m : EscMode) : Bool :=
  if isAlphaNum c then false
  else if (m = .host ∨ m = .zone) ∧
      (c ∈ (['!', '$', '&', '\'', '(', ')', '*', '+', ',', ';', '=', ':',
             '[', ']', '<', '>', '"'] : List Char)) then false
  else if c ∈ (['-', '_', '.', '~'] : List Char) then false
  else if c ∈ (['$', '&', '+', ',', '/', ':', ';', '=', '?', '@'] : List Char) then
    match m with
    | .path => c = '?'
    | .userPass => c = '@' ∨ c = '/' ∨ c = '?' ∨ c = ':'
    | .query => true
    | .fragment => false
    | .host => true
    | .zone => true
  else if m = .fragment ∧ c ∈ (['!', '(', ')', '*'] : List Char) then false
  else true

/-- One byte of Go `net/url.escape` output.  Chars model bytes, so the byte
value is `c.toNat % 256`. -/
def escapeChar (m : EscMode) (c : Char) : GoStr :=
  if shouldEscape c m then
    if c = ' ' ∧ m = .query then ['+']
    else
      let b := c.toNat % 256
      ['%', upperHexDigit (b / 16), upperHexDigit (b % 16)]
  else [c]

/-- Go `net/url.escape`. -/
def escapeGo (m : EscMode) (s : GoStr) : GoStr := s.flatMap (escapeChar m)

/-- Go `net/url.unescape`: validates and decodes `%XX` sequences, maps `+`
to space in query mode, and in host/zone mode rejects ASCII bytes that would
need escaping as well as `%XY` host escapes with `X < 8` other than `%25`
(RFC 3986 / RFC 6874 rules, exactly as `net/url` implements them). -/
def unescapeGo (m : EscMode) : GoStr → Option GoStr
  | [] => some []
  | '%' :: rest =>
    match rest with
    | a :: b :: rest2 =>
      if isHexDigit a ∧ isHexDigit b then
        let v := 16 * unhex a + unhex b
        if m = .host ∧ unhex a < 8 ∧ ¬(a = '2' ∧ b = '5') then none
        else if m = .zone ∧ ¬(a = '2' ∧ b = '5') ∧ v ≠ ' '.toNat ∧
            shouldEscape (Char.ofNat v) .host then none
        else (unescapeGo m rest2).map (Char.ofNat v :: ·)
      else none
    | _ => none
  | '+' :: rest =>
    (unescapeGo m rest).map ((if m = .query then ' ' else '+') :: ·)
  | c :: rest =>
    if (m = .host ∨ m = .zone) ∧ c.toNat < 0x80 ∧ shouldEscape c m then none
    else (unescapeGo m rest).map (c :: ·)

/-- Go `net/url.QueryEscape`. -/
def queryEscape (s : GoStr) : GoStr := escapeGo .query s

/-- Go `net/url.QueryUnescape`. -/
def queryUnescape (s : GoStr) : Option GoStr := unescapeGo .query s

/-! ## `net/url.Parse` and `URL.String`

The codec only ever builds URLs of the form `https://...` via
`fmt.Sprintf`, so the scheme parse always yields `https`; the model
requires that literal prefix. -/

/-- Go `strings.Cut(s, string(c))`: text before the first `c`, and the text
after it when present. -/
def cutFirst (c : Char) : GoStr → GoStr × Option GoStr
  | [] => ([], none)
  | x :: xs =>
    if x = c then ([], some xs)
    else
      let r := cutFirst c xs
      (x :: r.1, r.2)

/-- Split at the last occurrence of `c`: `s = before ++ c :: after`. -/
def cutLast (c : Char) (s : GoStr) : Option (GoStr × GoStr) :=
  match cutFirst c s.reverse with
  | (_, none) => none
  | (ra, some rb) => some (rb.reverse, ra.reverse)

/-- Go `stringContainsCTLByte`. -/
def containsCTL (s : GoStr) : Bool :=
  s.any (fun c => c.toNat < 0x20 ∨ c.toNat = 0x7f)

def stripHttpsScheme : GoStr → Option GoStr
  | 'h' :: 't' :: 't' :: 'p' :: 's' :: ':' :: '/' :: '/' :: rest => some rest
  | _ => none

/-- Go `validOptionalPort`: empty, or `:` followed by zero or more digits. -/
def validOptionalPort : GoStr → Bool
  | [] => true
  | ':' :: rest => rest.all isDigit
  | _ => false

/-- First occurrence of the literal `%25` (Go `strings.Index(s, "%25")`):
returns the text before it and the suffix starting at it. -/
def cutPct25 : GoStr → Option (GoStr × GoStr)
  | [] => none
  | '%' :: '2' :: '5' :: rest => some ([], '%' :: '2' :: '5' :: rest)
  | c :: rest => (cutPct25 rest).map (fun r => (c :: r.1, r.2))

/-- Go `net/url.parseHost`.  The bracket test is
`strings.HasPrefix(host, "[")`. -/
def parseHost (host : GoStr) : Option GoStr :=
  if host.head? = some '[' then
    match cutLast ']' host with
    | none => none
    | some (beforeClose, colonPort) =>
      if ¬ validOptionalPort colonPort then none
      else
        match cutPct25 beforeClose with
        | some (pre, zonePart) => do
          let h1 ← unescapeGo .host pre
          let h2 ← unescapeGo .zone zonePart
          let h3 ← unescapeGo .host (']' :: colonPort)
          pure (h1 ++ h2 ++ h3)
        | none => unescapeGo .host host
  else
    match cutLast ':' host with
    | some (_, portPart) =>
      if ¬ validOptionalPort (':' :: portPart) then none
      else unescapeGo .host host
    | none => unescapeGo .host host

/-- Go `validUserinfo`, byte level: bytes outside the listed ASCII set
(including all bytes above `0x7f`) are rejected. -/
def validUserinfoChar (c : Char) : Bool :=
  isAlphaNum c ∨
    c ∈ (['-', '.', '_', ':', '~', '!', '$', '&', '\'', '(', ')', '*', '+',
          ',', ';', '=', '%', '@'] : List Char)

structure UserInfo where
  username : GoStr
  password : Option GoStr
  deriving DecidableEq

/-- Go `net/url.parseAuthority`: optional userinfo before the last `@`,
host parsed by `parseHost`. -/
def parseAuthority (authority : GoStr) : Option (Option UserInfo × GoStr) :=
  match cutLast '@' authority with
  | none => (parseHost authority).map (fun h => (none, h))
  | some (userinfo, hostPart) => do
    let host ← parseHost hostPart
    if ¬ userinfo.all validUserinfoChar then none
    else
      match cutFirst ':' userinfo with
      | (_, none) => do
        let u ← unescapeGo .userPass userinfo
        pure (some ⟨u, none⟩, host)
      | (uname, some pass) => do
        let u ← unescapeGo .userPass uname
        let p ← unescapeGo .userPass pass
        pure (some ⟨u, some p⟩, host)

/-- The fields of Go `url.URL` that the repository reads (scheme is always
`https` by construction and is not stored). -/
structure URLRec where
  user : Option UserInfo
  host : GoStr
  path : GoStr
  rawPath : GoStr
  forceQuery : Bool
  rawQuery : GoStr
  fragment : GoStr
  rawFragment : GoStr
  deriving DecidableEq

/-- Go `net/url.Parse` for the `https://` URLs the codec constructs:
fragment split at the first `#`, control-byte check, query cut (with the
trailing-`?` `ForceQuery` rule), authority up to the first `/`, then
`parseAuthority`, `setPath` and `setFragment`. -/
def goURLParse (s : GoStr) : Option URLRec :=
  let fragCut := cutFirst '#' s
  let beforeFrag := fragCut.1
  if containsCTL beforeFrag then none
  else
    match stripHttpsScheme beforeFrag with
    | none => none
    | some rest0 =>
      let queryCut :=
        if rest0.getLast? = some '?' ∧ ¬ (rest0.dropLast.contains '?')
        then (rest0.dropLast, ([] : GoStr), true)
        else
          match cutFirst '?' rest0 with
          | (b, none) => (b, ([] : GoStr), false)
          | (b, some q) => (b, q, false)
      let authSplit :=
        match cutFirst '/' queryCut.1 with
        | (b, none) => (b, ([] : GoStr))
        | (b, some p) => (b, '/' :: p)
      match parseAuthority authSplit.1 with
      | none => none
      | some (user, host) =>
        match unescapeGo .path authSplit.2 with
        | none => none
        | some path =>
          let rawPath := if escapeGo .path path = authSplit.2 then [] else authSplit.2
          match fragCut.2 with
          | none => some ⟨user, host, path, rawPath, queryCut.2.2, queryCut.2.1, [], []⟩
          | some f =>
            match unescapeGo .fragment f with
            | none => none
            | some frag =>
              let rawFragment := if escapeGo .fragment frag = f then [] else f
              some ⟨user, host, path, rawPath, queryCut.2.2, queryCut.2.1, frag, rawFragment⟩

/-- Go `validEncoded`. -/
def validEncoded (m : EscMode) : GoStr → Bool
  | [] => true
  | c :: rest =>
    (if c ∈ (['!', '$', '&', '\'', '(', ')', '*', '+', ',', ';', '=', ':',
              '@', '[', ']', '%'] : List Char)
     then true else ¬ shouldEscape c m) ∧ validEncoded m rest

/-- Go `URL.EscapedPath`. -/
def escapedPath (u : URLRec) : GoStr :=
  if u.rawPath ≠ [] ∧ validEncoded .path u.rawPath ∧
      unescapeGo .path u.rawPath = some u.path
  then u.rawPath
  else if u.path = ['*'] then ['*']
  else escapeGo .path u.path

/-- Go `URL.EscapedFragment`. -/
def escapedFragment (u : URLRec) : GoStr :=
  if u.rawFragment ≠ [] ∧ validEncoded .fragment u.rawFragment ∧
      unescapeGo .fragment u.rawFragment = some u.fragment
  then u.rawFragment
  else escapeGo .fragment u.fragment

def userinfoString (ui : UserInfo) : GoStr :=
  escapeGo .userPass ui.username ++
    (match ui.password with
     | none => []
     | some p => ':' :: escapeGo .userPass p)

/-- Go `URL.String` for the parsed `https` URLs above. -/
def urlString (u : URLRec) : GoStr :=
  let userPart :=
    match u.user with
    | none => ([] : GoStr)
    | some ui => userinfoString ui ++ ['@']
  let hostPart := escapeGo .host u.host
  let p := escapedPath u
  let slashFix : GoStr :=
    if p ≠ [] ∧ p.head? ≠ some '/' ∧ u.host ≠ [] then ['/'] else []
  let queryPart : GoStr := if u.forceQuery ∨ u.rawQuery ≠ [] then '?' :: u.rawQuery else []
  let fragPart : GoStr := if u.fragment ≠ [] then '#' :: escapedFragment u else []
  "https://".toList ++ userPart ++ hostPart ++ slashFix ++ p ++ queryPart ++ fragPart

/-! ## The `didweb` codec (`pkg/didweb/didweb.go`) -/

/-- The codec descriptor `DIDWebURL`.  Go keeps the parsed query as a
`url.Values` map; the claims never read it, so the raw query string is
stored instead. -/
structure DIDWebURL where
  host : GoStr
  parts : List GoStr
  rawQuery : GoStr
  anchor : GoStr
  deriving DecidableEq

/-- `DIDWebURL.Host`: query-unescape the raw host; on decode failure return
the raw host; if the decoded host contains `:`, `Atoi` the piece after the
first `:`; non-numeric suffix returns the raw host, positive port returns
`prefix:port`, otherwise the decoded prefix alone. -/
def hostFn (u : DIDWebURL) : GoStr :=
  match queryUnescape u.host with
  | none => u.host
  | some decodedHost =>
    if containsChar decodedHost ':' then
      match splitOnChar ':' decodedHost with
      | s0 :: s1 :: _ =>
        match goAtoi s1 with
        | none => u.host
        | some port => if 0 < port then s0 ++ ':' :: natDec port.toNat else s0
      | _ => u.host
    else u.host

/-- The string returned by `DIDWebURL.ID`. -/
def idString (u : DIDWebURL) : GoStr :=
  if u.parts = [] then u.host
  else u.host ++ ':' :: joinWith ':' (u.parts.map queryEscape)

/-- The state left behind by `DIDWebURL.ID`: the method writes the escaped
form of each path segment back into the shared `parts` slice. -/
def idMutate (u : DIDWebURL) : DIDWebURL :=
  { u with parts := u.parts.map queryEscape }

/-- `DIDWebURL.ID` with its effect on the receiver made explicit. -/
def idEff (u : DIDWebURL) : GoStr × DIDWebURL := (idString u, idMutate u)

/-- The string returned by `DIDWebURL.DID`. -/
def didString (u : DIDWebURL) : GoStr := "did:web:".toList ++ idString u

/-- `DIDWebURL.DID` with its effect (it calls `ID`). -/
def didEff (u : DIDWebURL) : GoStr × DIDWebURL := (didString u, idMutate u)

/-- `DIDWebURL.URL`: builds `https://Host()/<parts>/did.json` (defaulting
the segment list to `.well-known`), round-trips it through `url.Parse` and
`URL.String`, and returns the empty string when parsing fails. -/
def urlFn (u : DIDWebURL) : GoStr :=
  let ps := if u.parts = [] then [".well-known".toList] else u.parts
  match goURLParse ("https://".toList ++ hostFn u ++ '/' ::
      (joinWith '/' ps ++ "/did.json".toList)) with
  | none => []
  | some r => urlString r

/-- `didweb.Parse`. -/
def goParse (id : GoStr) : Except Unit DIDWebURL :=
  let didParts := splitOnChar ':' id
  if didParts.length < 3 then .error ()
  else if ¬ (didParts.getD 0 [] = "did".toList ∧ didParts.getD 1 [] = "web".toList) then
    .error ()
  else
    let host := didParts.getD 2 []
    let d0 : DIDWebURL := ⟨host, [], [], []⟩
    match ((didParts.drop 3).filter (· ≠ [])).mapM queryUnescape with
    | none => .error ()
    | some path =>
      match goURLParse ("https://".toList ++ hostFn d0 ++ '/' :: joinWith '/' path) with
      | none => .error ()
      | some didURL =>
        let parts :=
          if 0 < path.length then splitOnChar '/' (trimChar '/' didURL.path) else []
        .ok ⟨host, parts, didURL.rawQuery, didURL.fragment⟩

/-- `didweb.ParsePath`. -/
def goParsePath (p : GoStr) : Except Unit DIDWebURL :=
  let parts := splitOnChar '/' p
  if parts.length < 2 then .error ()
  else
    let lastPart := (parts.getLast?).getD []
    if ¬ equalFold lastPart ("did.json".toList) then .error ()
    else
      let parts1 := parts.dropLast
      let parts2 :=
        if equalFold ((parts1.getLast?).getD []) (".well-known".toList)
        then parts1.dropLast else parts1
      goParse ("did:web:".toList ++ joinWith ':' parts2)

/-! ## DID documents and the registration state machine

The DID document data model and its builder live in the external ssi-sdk
(out of scope per spec §1); they are modelled from the spec interface
description in §3/§4.3/§6: a document with an identifier, a verification
method list and the five relationship lists, built by `Add*` calls keyed
by `#fragment` references. -/

structure VerificationMethod where
  vmID : GoStr
  controller : GoStr
  deriving DecidableEq

structure DIDService where
  svcID : GoStr
  deriving DecidableEq

structure Document where
  docID : GoStr
  verificationMethod : List VerificationMethod
  authentication : List GoStr
  assertionMethod : List GoStr
  capabilityDelegation : List GoStr
  capabilityInvocation : List GoStr
  keyAgreement : List GoStr
  services : List DIDService
  deriving DecidableEq

structure KeyInput where
  purposes : List GoStr
  verificationMethod : VerificationMethod
  deriving DecidableEq

/-- Modelled from the spec: `didweb.New` delegates to the external ssi-sdk
document builder; per §3 and §4.3 the candidate document carries the
identifier `did:web:<id>` and its relationship lists are populated from
the key inputs, so the base document starts with empty lists. -/
def didwebNew (id : GoStr) : Document :=
  ⟨"did:web:".toList ++ id, [], [], [], [], [], [], []⟩

/-- One purpose dispatch step of `DIDFromProps`: case-insensitive match on
the five purpose names, in source order; unrecognized purposes are
ignored.  The builder `Add*` calls append `"#" + vm.ID`. -/
def addPurpose (doc : Document) (vmID : GoStr) (purpose : GoStr) : Document :=
  if equalFold purpose ("authentication".toList) then
    { doc with authentication := doc.authentication ++ ['#' :: vmID] }
  else if equalFold purpose ("assertionMethod".toList) then
    { doc with assertionMethod := doc.assertionMethod ++ ['#' :: vmID] }
  else if equalFold purpose ("capabilityDelegation".toList) then
    { doc with capabilityDelegation := doc.capabilityDelegation ++ ['#' :: vmID] }
  else if equalFold purpose ("capabilityInvocation".toList) then
    { doc with capabilityInvocation := doc.capabilityInvocation ++ ['#' :: vmID] }
  else if equalFold purpose ("keyAgreement".toList) then
    { doc with keyAgreement := doc.keyAgreement ++ ['#' :: vmID] }
  else doc

/-- One key input of `DIDFromProps`: set the controller, add the
verification method, then dispatch each purpose. -/
def addKeyInput (doc : Document) (k : KeyInput) : Document :=
  let doc1 := { doc with verificationMethod := doc.verificationMethod ++
      [{ k.verificationMethod with controller := doc.docID }] }
  k.purposes.foldl (fun d p => addPurpose d k.verificationMethod.vmID p) doc1

inductive RegErr where
  | noAssertionMethod
  deriving DecidableEq

/-- `didstorage.DIDFromProps`: builds the candidate document from the key
inputs, rejects it when no assertion-method relationship was added, then
appends the services.  The external builder `Add*` calls are modelled as
total. -/
def DIDFromProps (id : GoStr) (keys : List KeyInput) (services : List DIDService) :
    Except RegErr Document :=
  let doc := keys.foldl addKeyInput (didwebNew id)
  if doc.assertionMethod = [] then .error .noAssertionMethod
  else .ok { doc with services := doc.services ++ services }

/-- Stored bytes.  JSON (de)serialization of documents is external; it is
modelled as an injective tagged encoding: serialized-document bytes
unmarshal back to the document, any other stored bytes (such as a payment
request string) fail to unmarshal as a document. -/
inductive StoreVal where
  | docJSON (d : Document)
  | payReq (s : GoStr)
  deriving DecidableEq

/-- The key/value store (`bbolt`-backed): per-key `Get`/`Set`/`Delete`,
each a single transaction; "not found" is an absent value. -/
abbrev Store := List (GoStr × StoreVal)

def storeGet (st : Store) (k : GoStr) : Option StoreVal :=
  (st.find? (fun e => e.1 = k)).map (·.2)

def storeSet (st : Store) (k : GoStr) (v : StoreVal) : Store :=
  (k, v) :: st.filter (fun e => e.1 ≠ k)

def storeDel (st : Store) (k : GoStr) : Store :=
  st.filter (fun e => e.1 ≠ k)

/-- `json.Unmarshal` of fetched bytes into a `did.Document`: fails on
absent/empty bytes and on bytes that are not a serialized document. -/
def unmarshalDoc : Option StoreVal → Option Document
  | some (.docJSON d) => some d
  | _ => none

/-- `DIDStore.Register` (part_000): marshal the document, parse its
identifier, store the bytes under the parsed `ID()`. -/
def didStoreRegister (st : Store) (doc : Document) : Except Unit Store :=
  match goParse doc.docID with
  | .error _ => .error ()
  | .ok u => .ok (storeSet st (idString u) (.docJSON doc))

/-- `DIDStore.Resolve`: `Get`, require non-empty bytes, unmarshal. -/
def didStoreResolve (st : Store) (id : GoStr) : Option Document :=
  unmarshalDoc (storeGet st id)

structure PaymentResponse where
  paymentHash : GoStr
  paymentRequest : GoStr
  deriving DecidableEq

/-- The invoice-creation request `RegisterStore.Register` POSTs to the
payment gateway. -/
structure InvoiceReq where
  outFlag : Bool
  memo : GoStr
  amount : Int
  webhook : GoStr
  deriving DecidableEq

/-- External collaborators of `RegisterStore`: invoice creation and
invoice validation at the payment gateway, and the random byte stream.
The source draws the stream from `math/rand` (`rand.Read`), modelled as a
function from requested length to bytes. -/
structure RegEnv where
  createInvoice : InvoiceReq → Option PaymentResponse
  validateReq : StoreVal → Bool
  rng : Nat → List Nat

/-- `fmt.Sprintf("%x", bytes)`: two lowercase hex digits per byte. -/
def hexEncode (bs : List Nat) : GoStr :=
  bs.flatMap (fun b => [lowerHexDigit (b % 256 / 16), lowerHexDigit (b % 16)])

/-- The payment-confirmation webhook URL embedding the hex nonce. -/
def webhookURL (nonce : List Nat) : GoStr :=
  "https://did-web.onrender.com/paid/".toList ++ hexEncode nonce

/-- The invoice request body: `{out: false, memo: "Register <id>",
amount: 69, webhook: <webhookURL>}`. -/
def invoiceRequest (doc : Document) (nonce : List Nat) : InvoiceReq :=
  ⟨false, "Register ".toList ++ doc.docID, 69, webhookURL nonce⟩

/-- `RegisterStore.Register` (part_000 lines 453-523): reject an empty
identifier, draw a 64-byte nonce from the RNG, request an invoice whose
webhook embeds the hex nonce, then persist the document bytes under the
hex nonce and the payment request under the document identifier. -/
def regRegister (env : RegEnv) (st : Store) (doc : Document) :
    Except Unit (PaymentResponse × Store) :=
  if doc.docID = [] then .error ()
  else
    let nonce := env.rng 64
    match env.createInvoice (invoiceRequest doc nonce) with
    | none => .error ()
    | some resp =>
      let st1 := storeSet st (hexEncode nonce) (.docJSON doc)
      let st2 := storeSet st1 doc.docID (.payReq resp.paymentRequest)
      .ok (resp, st2)

/-- `RegisterStore.Get`: fetch the bytes stored under the document
identifier and re-validate them live against the gateway. -/
def regGet (env : RegEnv) (st : Store) (doc : Document) : Option StoreVal :=
  match storeGet st doc.docID with
  | none => none
  | some v => if env.validateReq v then some v else none

/-- `RegisterStore.Paid` (part_000 lines 435-451): `Get` the bytes stored
under the nonce, unmarshal them as a document (absent bytes or a payment
request string fail here), then delete the nonce record and the
`doc.ID` invoice record. -/
def regPaid (st : Store) (id : GoStr) : Except Unit (Document × Store) :=
  match unmarshalDoc (storeGet st id) with
  | none => .error ()
  | some doc =>
    let st1 := storeDel st id
    let st2 := storeDel st1 doc.docID
    .ok (doc, st2)

structure PayInfo where
  paymentHash : GoStr
  amount : Int
  deriving DecidableEq

inductive PaidResp where
  /-- 401 "unauthorized" after a failed `Paid`. -/
  | unauthorized
  /-- body read or JSON decode failed: the handler logs and returns with
  no error body. -/
  | silentReturn
  /-- 500 from the finalized-store `Register`. -/
  | registerFailed
  /-- 200 "ok" followed by the payment broadcast. -/
  | success
  deriving DecidableEq

/-- `Server.handlePaid`: `Paid` (lookup, unmarshal, delete, delete) runs
before the request body is read.  Body read errors and JSON decode errors
both return silently, so they are merged into one `Option`. -/
def handlePaid (regStore didStore : Store) (nonce : GoStr) (body : Option PayInfo) :
    PaidResp × Store × Store :=
  match regPaid regStore nonce with
  | .error _ => (.unauthorized, regStore, didStore)
  | .ok (doc, reg1) =>
    match body with
    | none => (.silentReturn, reg1, didStore)
    | some _ =>
      match didStoreRegister didStore doc with
      | .error _ => (.registerFailed, reg1, didStore)
      | .ok did1 => (.success, reg1, did1)

structure RegisterRequest where
  regID : GoStr
  keys : List KeyInput
  services : List DIDService
  deriving DecidableEq

inductive RegResp where
  /-- 500 "could not get boxy" (body read failed). -/
  | readFailed
  /-- 400 "invalid request" (JSON decode failed). -/
  | invalidRequest
  /-- 400: fewer than 2 `:`-delimited parts. -/
  | badFormat
  /-- 400: first part is not the configured domain. -/
  | badDomain
  /-- 400 "did exists". -/
  | didExists
  /-- 500 from `DIDFromProps` (assertion-method invariant). -/
  | noAssertion
  /-- 500 from `RegisterStore.Register`. -/
  | gatewayFailed
  /-- 200 with the previously stored invoice bytes. -/
  | invoice (v : StoreVal)
  /-- 200 with the fresh payment request. -/
  | newInvoice (payReq : GoStr)
  deriving DecidableEq

/-- `Server.handleRegister`: the body parameter is `none` for a transport
read failure, `some none` for a JSON decode failure, `some (some input)`
otherwise.  Returns the response and the register store; the finalized
store is only read (by the duplicate check), never written. -/
def handleRegister (env : RegEnv) (domain : GoStr) (didStore regStore : Store)
    (body : Option (Option RegisterRequest)) : RegResp × Store :=
  match body with
  | none => (.readFailed, regStore)
  | some none => (.invalidRequest, regStore)
  | some (some input) =>
    let parts := splitOnChar ':' input.regID
    if parts.length < 2 then (.badFormat, regStore)
    else if parts.getD 0 [] ≠ domain then (.badDomain, regStore)
    else
      match didStoreResolve didStore input.regID with
      | some _ => (.didExists, regStore)
      | none =>
        match DIDFromProps input.regID input.keys input.services with
        | .error .noAssertionMethod => (.noAssertion, regStore)
        | .ok doc =>
          match regGet env regStore doc with
          | some v => (.invoice v, regStore)
          | none =>
            match regRegister env regStore doc with
            | .error _ => (.gatewayFailed, regStore)
            | .ok (resp, st1) => (.newInvoice resp.paymentRequest, st1)

/-! ## The payment notification broker (`PaymentBroker`) -/

/-- A Go channel with its buffer capacity. -/
structure GoChan where
  cap : Nat
  deriving DecidableEq

/-- The delivery channel created by `WaitForPayment`: `make(chan string)`,
an unbuffered channel (server.go line 101). -/
def waitChan : GoChan := ⟨0⟩

/-- Whether a subscriber goroutine is currently parked at its channel
receive (`stalled` models a subscriber stuck elsewhere, for example in a
blocking write to a slow client). -/
inductive SubState where
  | ready | stalled
  deriving DecidableEq

/-- A Go channel send completes immediately only by rendezvous with a
waiting receiver or by free buffer space. -/
def sendCompletes (c : GoChan) (s : SubState) : Bool :=
  s = .ready ∨ 0 < c.cap

/-- `BroadcastPayment`'s delivery loop (`for c := range client { c <- "paid" }`):
sequential unconditional sends with no `select`/`default`; when a send
cannot complete the loop blocks there forever, so no later subscriber is
reached.  Returns which subscribers received the payload and whether the
publisher finished. -/
def broadcastDeliver (c : GoChan) : List SubState → List Bool × Bool
  | [] => ([], true)
  | s :: rest =>
    if sendCompletes c s then
      let r := broadcastDeliver c rest
      (true :: r.1, r.2)
    else
      (false :: rest.map (fun _ => false), false)

/-- The broker's `clients` map restricted to one lookup:
`BroadcastPayment(id)` reads `b.clients[id]` and delivers only to those
channels; a missing key delivers to nobody. -/
def broadcastPayment (clients : List (GoStr × List SubState)) (c : GoChan)
    (id : GoStr) : List Bool × Bool :=
  broadcastDeliver c (((clients.find? (fun e => e.1 = id)).map (·.2)).getD [])

/-! ## Interleaved executions of `RegisterStore.Paid`

Each store operation is one bbolt transaction, hence atomic and
linearizable per key (spec §5); distinct `Paid` calls may interleave
between operations.  One call is the step sequence: `Get nonce`
(program counter 0, with the pure unmarshal deciding success), `Delete
nonce` (1), `Delete doc.ID` (2), done (3). -/

structure PaidThread where
  nonce : GoStr
  pc : Nat
  fetched : Option StoreVal
  deriving DecidableEq

def paidThreadStep (st : Store) (t : PaidThread) : Store × PaidThread :=
  match t.pc with
  | 0 =>
    let v := storeGet st t.nonce
    match unmarshalDoc v with
    | none => (st, { t with pc := 3, fetched := v })
    | some _ => (st, { t with pc := 1, fetched := v })
  | 1 => (storeDel st t.nonce, { t with pc := 2 })
  | 2 =>
    match unmarshalDoc t.fetched with
    | some d => (storeDel st d.docID, { t with pc := 3 })
    | none => (st, { t with pc := 3 })
  | _ => (st, t)

/-- The value the finished call returns. -/
def paidThreadResult (t : PaidThread) : Except Unit Document :=
  if t.pc = 3 then
    match unmarshalDoc t.fetched with
    | some d => .ok d
    | none => .error ()
  else .error ()

/-- Run a schedule over two `Paid` calls: `true` steps the first thread,
`false` the second. -/
def runSched (st : Store) (a b : PaidThread) : List Bool → Store × PaidThread × PaidThread
  | [] => (st, a, b)
  | i :: rest =>
    if i then
      let r := paidThreadStep st a
      runSched r.1 r.2 b rest
    else
      let r := paidThreadStep st b
      runSched r.1 a r.2 rest

/-- A sequence of completed sequential `Paid` calls (the store after each
call, successful or not). -/
def paidSeq (st : Store) : List GoStr → Store
  | [] => st
  | m :: ms =>
    match regPaid st m with
    | .error _ => paidSeq st ms
    | .ok (_, st1) => paidSeq st1 ms


/-! ## Character classes for the round-trip and URL statements

These predicates are spec-side restrictions (they appear only in theorem
hypotheses, not in the embedded code).  The numeric bounds keep every
character a printable ASCII byte. -/

/-- Hosts made of unreserved bytes: letters, digits, `.`, `-`, `_`, `~`. -/
def simpleHostChar (c : Char) : Bool :=
  (isAlphaNum c ∨ c ∈ (['.', '-', '_', '~'] : List Char)) ∧
    0x20 ≤ c.toNat ∧ c.toNat < 0x7f

/-- Decoded path-segment bytes that survive the codec's second URL pass:
printable ASCII other than `/`, `?`, `#`, `%`. -/
def goodSegChar (c : Char) : Bool :=
  0x20 ≤ c.toNat ∧ c.toNat < 0x7f ∧ c ≠ '/' ∧ c ≠ '?' ∧ c ≠ '#' ∧ c ≠ '%'

/-- Decoded path-segment bytes that `URL.String` re-emits verbatim. -/
def pathSafeChar (c : Char) : Bool :=
  shouldEscape c .path = false ∧ c ≠ '/' ∧ 0x20 ≤ c.toNat ∧ c.toNat < 0x7f

/-! ## Concrete inputs used by the per-claim witnesses -/

def c2Doc : Document :=
  ⟨"did:web:example.com:alice".toList, [], [], ['#' :: "k1".toList], [], [], [], []⟩

def c2Nonce : GoStr := "abcd".toList

def c2Store : Store := [(c2Nonce, .docJSON c2Doc)]

def c2Run : Store × PaidThread × PaidThread :=
  runSched c2Store ⟨c2Nonce, 0, none⟩ ⟨c2Nonce, 0, none⟩
    [true, false, true, true, false, false]

def c2WitDoc : Document :=
  ⟨"did:web:example.com:bob".toList, [], [], ['#' :: "k1".toList], [], [], [], []⟩

def c2WitStore : Store := [("0a".toList, .docJSON c2WitDoc)]

def c9Doc : Document :=
  ⟨"did:web:example.com:carol".toList, [], [], ['#' :: "k1".toList], [], [], [], []⟩

def c9Store : Store := [("7f".toList, .docJSON c9Doc)]

def c3Env : RegEnv := ⟨fun _ => none, fun _ => false, fun _ => []⟩

def c3Input : RegisterRequest :=
  ⟨"example.com:alice".toList,
   [⟨["authentication".toList], ⟨"key1".toList, [] ⟩⟩], []⟩

def c3WitDoc : Document :=
  ⟨"did:web:example.com:erin".toList, [], [], ['#' :: "k1".toList], [], [], [], []⟩

def c8Env : RegEnv :=
  ⟨fun _ => some ⟨"h".toList, "inv".toList⟩, fun _ => false, fun n => List.range n⟩

def c8Doc : Document :=
  ⟨"did:web:example.com:dave".toList, [], [], ['#' :: "k1".toList], [], [], [], []⟩

def c8WitStore : Store :=
  storeSet (storeSet [] (hexEncode (List.range 64)) (.docJSON c8Doc))
    c8Doc.docID (.payReq ("inv".toList))

def c4WitU : DIDWebURL := ⟨"localhost%3A0".toList, [], [], []⟩

def c10U : DIDWebURL := ⟨"example.com".toList, ["some+subpath".toList], [], []⟩

end GoDidWeb

deriving instance DecidableEq for Except

namespace GoDidWeb

/-! ## Store lemmas -/

theorem storeGet_del (st : Store) (k j : GoStr) :
    storeGet (storeDel st k) j = if j = k then none else storeGet st j := by
  induction st with
  | nil => by_cases h : j = k <;> simp [storeGet, storeDel, h]
  | cons e rest ih =>
    by_cases hek : e.1 = k <;> by_cases hej : e.1 = j <;>
      simp [storeGet, storeDel, hek, hej] at ih ⊢ <;> simp_all

theorem storeGet_set (st : Store) (k j : GoStr) (v : StoreVal) :
    storeGet (storeSet st k v) j = if j = k then some v else storeGet st j := by
  have h1 : storeGet (storeSet st k v) j =
      if k = j then some v else storeGet (storeDel st k) j := by
    simp only [storeSet, storeDel, storeGet, List.find?]
    by_cases h : k = j <;> simp [h]
  rw [h1, storeGet_del]
  by_cases h : j = k
  · simp [h]
  · simp [h, Ne.symm h]

/-! ## The interleaving model computes `Paid` -/

/-- Sanity check tying the step model to the sequential function: one
`Paid` thread run to completion without interference returns and leaves
behind exactly what `regPaid` does. -/
theorem paidThread_seq (st : Store) (n : GoStr) :
    (let s1 := paidThreadStep st ⟨n, 0, none⟩
     let s2 := paidThreadStep s1.1 s1.2
     let s3 := paidThreadStep s2.1 s2.2
     (paidThreadResult s3.2, s3.1)) =
      (match regPaid st n with
       | .error _ => (.error (), st)
       | .ok (d, st1) => (.ok d, st1)) := by
  cases h : unmarshalDoc (storeGet st n) <;>
    simp [paidThreadStep, paidThreadResult, regPaid, h]

/-! ## C2 -/

/-- C2 counterexample: two `ConfirmPayment` executions with the same nonce,
interleaved as get/get/delete/delete (each store operation its own
transaction, as in the source), both succeed and both return the pending
document — the claimed at-most-once property fails under the
concurrent/duplicate delivery it quantifies over, because the code deletes
only after the lookup and the JSON decode. -/
theorem c2_counterexample :
    paidThreadResult c2Run.2.1 = .ok c2Doc ∧
    paidThreadResult c2Run.2.2 = .ok c2Doc := by decide

theorem regPaid_of_get_none {st : Store} {n : GoStr} (h : storeGet st n = none) :
    regPaid st n = .error () := by
  simp [regPaid, h, unmarshalDoc]

theorem regPaid_ok_store {st : Store} {n : GoStr} {d : Document} {st1 : Store}
    (h : regPaid st n = .ok (d, st1)) :
    st1 = storeDel (storeDel st n) d.docID := by
  cases hv : unmarshalDoc (storeGet st n) with
  | none => simp [regPaid, hv] at h
  | some d0 =>
    simp [regPaid, hv] at h
    rw [← h.2, h.1]

theorem paidSeq_get_none (st : Store) (ms : List GoStr) {n : GoStr}
    (h : storeGet st n = none) : storeGet (paidSeq st ms) n = none := by
  induction ms generalizing st with
  | nil => exact h
  | cons m ms ih =>
    cases hr : regPaid st m with
    | error e => simpa [paidSeq, hr] using ih st h
    | ok p =>
      obtain ⟨d, st1⟩ := p
      have hst1 : storeGet st1 n = none := by
        rw [regPaid_ok_store hr, storeGet_del, storeGet_del]
        split
        · rfl
        · split
          · rfl
          · exact h
      simpa [paidSeq, hr] using ih st1 hst1

/-- C2 (amended): `ConfirmPayment` looks the pending registration up,
deserializes it, and only then deletes it (the nonce record and the
identifier record); it fails — surfaced as 401 unauthorized — whenever no
pending record is stored under the nonce; a successful call leaves no
record under the nonce; and in any sequential execution every later call
with the same nonce fails.  (Lookup and deletion are separate per-key
transactions, so the at-most-once property is sequential only; interleaved
duplicate deliveries can both succeed, see the counterexample.) -/
theorem c2_paid_amended :
    (∀ st : Store, ∀ n : GoStr, storeGet st n = none → regPaid st n = .error ()) ∧
    (∀ regStore didStore : Store, ∀ n : GoStr, ∀ body : Option PayInfo,
      storeGet regStore n = none →
      (handlePaid regStore didStore n body).1 = .unauthorized) ∧
    (∀ st : Store, ∀ n : GoStr, ∀ d : Document, ∀ st1 : Store,
      regPaid st n = .ok (d, st1) → storeGet st1 n = none) ∧
    (∀ st : Store, ∀ n : GoStr, ∀ d : Document, ∀ st1 : Store, ∀ ms : List GoStr,
      regPaid st n = .ok (d, st1) → regPaid (paidSeq st1 ms) n = .error ()) := by
  have hdel : ∀ st : Store, ∀ n : GoStr, ∀ d : Document, ∀ st1 : Store,
      regPaid st n = .ok (d, st1) → storeGet st1 n = none := by
    intro st n d st1 h
    rw [regPaid_ok_store h, storeGet_del, storeGet_del]
    split
    · rfl
    · simp
  refine ⟨fun st n h => regPaid_of_get_none h, ?_, hdel, ?_⟩
  · intro regStore didStore n body h
    simp [handlePaid, regPaid_of_get_none h]
  · intro st n d st1 ms h
    exact regPaid_of_get_none (paidSeq_get_none st1 ms (hdel st n d st1 h))

theorem c2_paid_amended_witness :
    regPaid ([] : Store) ("x".toList) = .error () ∧
    (handlePaid ([] : Store) ([] : Store) ("x".toList) none).1 = .unauthorized ∧
    storeGet ([] : Store) ("0a".toList) = none ∧
    regPaid (paidSeq ([] : Store) ["0a".toList]) ("0a".toList) = .error () :=
  ⟨c2_paid_amended.1 [] ("x".toList) (by decide),
   c2_paid_amended.2.1 [] [] ("x".toList) none (by decide),
   c2_paid_amended.2.2.1 c2WitStore ("0a".toList) c2WitDoc [] (by decide),
   c2_paid_amended.2.2.2 c2WitStore ("0a".toList) c2WitDoc [] ["0a".toList] (by decide)⟩

/-! ## C9 -/

/-- C9: in `handlePaid` the pending registration is looked up and deleted
(both the nonce record and the identifier record) before the request body
is read: the resulting register store does not depend on the body at all;
and for a valid nonce whose body fails to read or decode, or whose
finalized-store write fails, the handler stops before finalizing — the
finalized store is untouched while both pending records are already
gone. -/
theorem c9_paid_before_body :
    (∀ regStore didStore : Store, ∀ n : GoStr, ∀ b1 b2 : Option PayInfo,
      (handlePaid regStore didStore n b1).2.1 =
        (handlePaid regStore didStore n b2).2.1) ∧
    (∀ regStore didStore : Store, ∀ n : GoStr, ∀ d : Document,
      ∀ body : Option PayInfo,
      storeGet regStore n = some (.docJSON d) →
      body = none ∨ goParse d.docID = .error () →
      (handlePaid regStore didStore n body).2.2 = didStore ∧
      storeGet (handlePaid regStore didStore n body).2.1 n = none ∧
      storeGet (handlePaid regStore didStore n body).2.1 d.docID = none ∧
      (handlePaid regStore didStore n body).1 ≠ .success) := by
  constructor
  · intro regStore didStore n b1 b2
    cases hr : regPaid regStore n with
    | error e => simp [handlePaid, hr]
    | ok p =>
      obtain ⟨doc, reg1⟩ := p
      cases b1 <;> cases b2 <;> simp [handlePaid, hr] <;>
        cases hd : didStoreRegister didStore doc <;> simp [hd]
  · intro regStore didStore n d body hget hbad
    have hr : regPaid regStore n = .ok (d, storeDel (storeDel regStore n) d.docID) := by
      simp [regPaid, hget, unmarshalDoc]
    have h1 : storeGet (storeDel (storeDel regStore n) d.docID) n = none := by
      rw [storeGet_del, storeGet_del]
      split
      · rfl
      · simp
    have h2 : storeGet (storeDel (storeDel regStore n) d.docID) d.docID = none := by
      rw [storeGet_del]
      simp
    rcases body with - | info
    · have hh : handlePaid regStore didStore n none =
          (.silentReturn, storeDel (storeDel regStore n) d.docID, didStore) := by
        simp [handlePaid, hr]
      rw [hh]
      exact ⟨rfl, h1, h2, by simp⟩
    · rcases hbad with hbody | hparse
      · exact absurd hbody (by simp)
      · have hreg : didStoreRegister didStore d = .error () := by
          simp [didStoreRegister, hparse]
        have hh : handlePaid regStore didStore n (some info) =
            (.registerFailed, storeDel (storeDel regStore n) d.docID, didStore) := by
          simp [handlePaid, hr, hreg]
        rw [hh]
        exact ⟨rfl, h1, h2, by simp⟩

theorem c9_paid_before_body_witness :
    (handlePaid c9Store [] ("7f".toList) (some ⟨[], 0⟩)).2.1 =
      (handlePaid c9Store [] ("7f".toList) none).2.1 ∧
    ((handlePaid c9Store [] ("7f".toList) none).2.2 = ([] : Store) ∧
      storeGet (handlePaid c9Store [] ("7f".toList) none).2.1 ("7f".toList) = none ∧
      storeGet (handlePaid c9Store [] ("7f".toList) none).2.1 c9Doc.docID = none ∧
      (handlePaid c9Store [] ("7f".toList) none).1 ≠ .success) :=
  ⟨c9_paid_before_body.1 c9Store [] ("7f".toList) (some ⟨[], 0⟩) none,
   c9_paid_before_body.2 c9Store [] ("7f".toList) c9Doc none (by decide) (Or.inl rfl)⟩

/-! ## C3 -/

theorem addPurpose_assertion (doc : Document) (vmID p : GoStr)
    (h : equalFold p ("assertionMethod".toList) = false) :
    (addPurpose doc vmID p).assertionMethod = doc.assertionMethod := by
  unfold addPurpose
  split_ifs <;> simp_all

theorem foldl_addPurpose_assertion (ps : List GoStr) (doc : Document) (vmID : GoStr)
    (h : ∀ p ∈ ps, equalFold p ("assertionMethod".toList) = false) :
    (ps.foldl (fun d p => addPurpose d vmID p) doc).assertionMethod =
      doc.assertionMethod := by
  induction ps generalizing doc with
  | nil => rfl
  | cons p ps ih =>
    rw [List.foldl_cons, ih _ (fun q hq => h q (List.mem_cons_of_mem _ hq)),
      addPurpose_assertion _ _ _ (h p (List.mem_cons_self _ _))]

theorem addKeyInput_assertion (doc : Document) (k : KeyInput)
    (h : ∀ p ∈ k.purposes, equalFold p ("assertionMethod".toList) = false) :
    (addKeyInput doc k).assertionMethod = doc.assertionMethod := by
  unfold addKeyInput
  rw [foldl_addPurpose_assertion _ _ _ h]

theorem DIDFromProps_noAssert (id : GoStr) (keys : List KeyInput)
    (services : List DIDService)
    (h : ∀ k ∈ keys, ∀ p ∈ k.purposes,
      equalFold p ("assertionMethod".toList) = false) :
    DIDFromProps id keys services = .error .noAssertionMethod := by
  have hfold : ∀ (ks : List KeyInput) (doc : Document),
      (∀ k ∈ ks, ∀ p ∈ k.purposes, equalFold p ("assertionMethod".toList) = false) →
      doc.assertionMethod = [] →
      (ks.foldl addKeyInput doc).assertionMethod = [] := by
    intro ks
    induction ks with
    | nil => exact fun doc _ hd => hd
    | cons k ks ih =>
      intro doc hk hd
      rw [List.foldl_cons]
      exact ih _ (fun q hq => hk q (List.mem_cons_of_mem _ hq))
        ((addKeyInput_assertion doc k (hk k (List.mem_cons_self _ _))).trans hd)
  simp only [DIDFromProps]
  rw [if_pos (hfold keys (didwebNew id) h rfl)]

theorem DIDFromProps_ok_assertion {id : GoStr} {keys : List KeyInput}
    {services : List DIDService} {d : Document}
    (h : DIDFromProps id keys services = .ok d) : d.assertionMethod ≠ [] := by
  simp only [DIDFromProps] at h
  split at h
  · simp at h
  · rename_i hne
    simp at h
    rw [← h]
    simpa using hne

theorem regRegister_ok_store {env : RegEnv} {st : Store} {doc : Document}
    {resp : PaymentResponse} {st1 : Store}
    (h : regRegister env st doc = .ok (resp, st1)) :
    st1 = storeSet (storeSet st (hexEncode (env.rng 64)) (.docJSON doc))
      doc.docID (.payReq resp.paymentRequest) ∧
    env.createInvoice (invoiceRequest doc (env.rng 64)) = some resp := by
  simp only [regRegister] at h
  split at h
  · simp at h
  · cases hc : env.createInvoice (invoiceRequest doc (env.rng 64)) with
    | none => rw [hc] at h; simp at h
    | some resp0 =>
      rw [hc] at h
      simp at h
      exact ⟨by rw [← h.2, h.1], by rw [h.1]⟩

/-- C3: a registration request that passes the identifier checks but whose
key inputs carry no `assertionMethod` purpose (case-insensitively) fails
with the no-assertion-method error and leaves the register store
unchanged (the finalized store is never written by `handleRegister` at
all); and conversely any document bytes found in the register store after
`handleRegister` were either there before or belong to a document with at
least one assertion-method relationship. -/
theorem c3_assertion_invariant :
    (∀ env : RegEnv, ∀ domain : GoStr, ∀ didStore regStore : Store,
      ∀ input : RegisterRequest,
      (∀ k ∈ input.keys, ∀ p ∈ k.purposes,
        equalFold p ("assertionMethod".toList) = false) →
      2 ≤ (splitOnChar ':' input.regID).length →
      (splitOnChar ':' input.regID).getD 0 [] = domain →
      didStoreResolve didStore input.regID = none →
      handleRegister env domain didStore regStore (some (some input)) =
        (.noAssertion, regStore)) ∧
    (∀ env : RegEnv, ∀ domain : GoStr, ∀ didStore regStore : Store,
      ∀ body : Option (Option RegisterRequest), ∀ k : GoStr, ∀ d : Document,
      storeGet (handleRegister env domain didStore regStore body).2 k =
        some (.docJSON d) →
      storeGet regStore k = some (.docJSON d) ∨ d.assertionMethod ≠ []) := by
  constructor
  · intro env domain didStore regStore input hkeys hlen hdom hres
    simp only [handleRegister]
    rw [if_neg (by omega), if_neg (not_ne_iff.mpr hdom), hres,
      DIDFromProps_noAssert _ _ _ hkeys]
  · intro env domain didStore regStore body k d hget
    have hstore : (handleRegister env domain didStore regStore body).2 = regStore ∨
        ∃ doc : Document, doc.assertionMethod ≠ [] ∧
          ∃ resp : PaymentResponse,
          (handleRegister env domain didStore regStore body).2 =
            storeSet (storeSet regStore (hexEncode (env.rng 64)) (.docJSON doc))
              doc.docID (.payReq resp.paymentRequest) := by
      rcases body with - | ob
      · exact Or.inl rfl
      rcases ob with - | input
      · exact Or.inl rfl
      by_cases hc1 : (splitOnChar ':' input.regID).length < 2
      · simp only [handleRegister, if_pos hc1]
        exact Or.inl trivial
      by_cases hc2 : (splitOnChar ':' input.regID).getD 0 [] ≠ domain
      · simp only [handleRegister, if_neg hc1, if_pos hc2]
        exact Or.inl trivial
      cases hres : didStoreResolve didStore input.regID with
      | some d0 =>
        simp only [handleRegister, if_neg hc1, if_neg hc2, hres]
        exact Or.inl trivial
      | none =>
        cases hprops : DIDFromProps input.regID input.keys input.services with
        | error e =>
          cases e
          simp only [handleRegister, if_neg hc1, if_neg hc2, hres, hprops]
          exact Or.inl trivial
        | ok doc =>
          cases hrg : regGet env regStore doc with
          | some v =>
            simp only [handleRegister, if_neg hc1, if_neg hc2, hres, hprops, hrg]
            exact Or.inl trivial
          | none =>
            cases hreg : regRegister env regStore doc with
            | error e =>
              simp only [handleRegister, if_neg hc1, if_neg hc2, hres, hprops, hrg,
                hreg]
              exact Or.inl trivial
            | ok pr =>
              obtain ⟨resp, st1⟩ := pr
              simp only [handleRegister, if_neg hc1, if_neg hc2, hres, hprops, hrg,
                hreg]
              exact Or.inr ⟨doc, DIDFromProps_ok_assertion hprops, resp,
                (regRegister_ok_store hreg).1⟩
    rcases hstore with heq | ⟨doc, hassert, resp, heq⟩
    · rw [heq] at hget
      exact Or.inl hget
    · rw [heq, storeGet_set, storeGet_set] at hget
      split at hget
      · simp at hget
      · split at hget
        · simp at hget
          exact Or.inr (hget ▸ hassert)
        · exact Or.inl hget

theorem c3_assertion_invariant_witness :
    handleRegister c3Env ("example.com".toList) [] [] (some (some c3Input)) =
      (.noAssertion, []) ∧
    (storeGet [("q".toList, .docJSON c3WitDoc)] ("q".toList) =
        some (.docJSON c3WitDoc) ∨ c3WitDoc.assertionMethod ≠ []) :=
  ⟨c3_assertion_invariant.1 c3Env ("example.com".toList) [] [] c3Input
      (by decide) (by decide) (by decide) (by decide),
   c3_assertion_invariant.2 c3Env ("example.com".toList) []
      [("q".toList, .docJSON c3WitDoc)] none ("q".toList) c3WitDoc (by decide)⟩

/-! ## C7 -/

/-- C7 evaluation at the failing configuration: the subscriber channels
are unbuffered (`make(chan string)`), and `BroadcastPayment` performs
sequential unconditional sends with no buffering or drop, so with two
subscribers registered under the same identifier of which the first is
stalled, no subscriber receives the payload and the publisher never
completes; with all subscribers ready every one of them receives it, and
an identifier with no registration delivers to nobody. -/
theorem c7_broadcast_blocks :
    waitChan.cap = 0 ∧
    broadcastPayment [("x".toList, [SubState.stalled, SubState.ready])] waitChan
      ("x".toList) = ([false, false], false) ∧
    broadcastPayment [("x".toList, [SubState.ready, SubState.ready])] waitChan
      ("x".toList) = ([true, true], true) ∧
    broadcastPayment [("x".toList, [SubState.ready])] waitChan ("y".toList) =
      ([], true) := by decide

/-! ## C8 -/

theorem hexEncode_length (bs : List Nat) : (hexEncode bs).length = 2 * bs.length := by
  induction bs with
  | nil => rfl
  | cons b bs ih => simp [hexEncode] at ih ⊢; omega

/-- C8 evaluation: when `RegisterStore.Register` succeeds, the gateway was
asked for an invoice whose webhook path segment is the hex encoding of
the RNG-drawn 64-byte nonce, the pending document is persisted under the
same hex string, and the hex key of a 64-byte nonce has 128 digits.  The
RNG itself is `math/rand`, not a cryptographically secure source — the
recorded divergence. -/
theorem c8_nonce_key_webhook :
    (∀ env : RegEnv, ∀ st : Store, ∀ doc : Document, ∀ resp : PaymentResponse,
      ∀ st1 : Store,
      regRegister env st doc = .ok (resp, st1) →
      env.createInvoice (invoiceRequest doc (env.rng 64)) = some resp ∧
      (invoiceRequest doc (env.rng 64)).webhook =
        "https://did-web.onrender.com/paid/".toList ++ hexEncode (env.rng 64) ∧
      (doc.docID ≠ hexEncode (env.rng 64) →
        storeGet st1 (hexEncode (env.rng 64)) = some (.docJSON doc))) ∧
    (∀ bs : List Nat, bs.length = 64 → (hexEncode bs).length = 128) := by
  constructor
  · intro env st doc resp st1 h
    obtain ⟨hst, hinv⟩ := regRegister_ok_store h
    refine ⟨hinv, rfl, fun hne => ?_⟩
    rw [hst, storeGet_set, storeGet_set]
    rw [if_neg (fun hh => hne hh.symm), if_pos rfl]
  · intro bs hlen
    rw [hexEncode_length, hlen]

theorem c8_nonce_key_witness :
    (c8Env.createInvoice (invoiceRequest c8Doc (c8Env.rng 64)) =
        some ⟨"h".toList, "inv".toList⟩ ∧
      (invoiceRequest c8Doc (c8Env.rng 64)).webhook =
        "https://did-web.onrender.com/paid/".toList ++ hexEncode (c8Env.rng 64) ∧
      (c8Doc.docID ≠ hexEncode (c8Env.rng 64) →
        storeGet c8WitStore (hexEncode (c8Env.rng 64)) = some (.docJSON c8Doc))) ∧
    (hexEncode (List.range 64)).length = 128 :=
  ⟨c8_nonce_key_webhook.1 c8Env [] c8Doc ⟨"h".toList, "inv".toList⟩ c8WitStore
      (by decide),
   c8_nonce_key_webhook.2 (List.range 64) (by decide)⟩

/-! ## C4 -/

/-- C4 counterexample: `did:web:localhost%3A0` parses; its query-unescaped
host `localhost:0` contains a single `:` whose suffix parses as the number
`0`, so the claim requires `Host()` to return the decoded host reattached
as `localhost:0` — but the code drops a non-positive port and returns
`localhost`. -/
theorem c4_counterexample :
    (goParse ("did:web:localhost%3A0".toList)).map hostFn =
      .ok ("localhost".toList) ∧
    queryUnescape ("localhost%3A0".toList) = some ("localhost:0".toList) ∧
    goAtoi ("0".toList) = some 0 ∧
    ("localhost".toList : GoStr) ≠ "localhost:0".toList := by decide

/-- C4 (amended): `Host()` returns the raw (possibly still-encoded) host
whenever percent-decoding fails, whenever the decoded host contains no
`:`, and whenever the piece between the first and second `:` of the
decoded host is non-numeric; when that piece parses as a number it returns
`prefix:port` for a positive port and the decoded prefix alone otherwise;
and `Parse("did:web:localhost%3A8443").Host() = "localhost:8443"`. -/
theorem c4_host_amended :
    (∀ u : DIDWebURL, queryUnescape u.host = none → hostFn u = u.host) ∧
    (∀ u : DIDWebURL, ∀ dh : GoStr, queryUnescape u.host = some dh →
      containsChar dh ':' = false → hostFn u = u.host) ∧
    (∀ u : DIDWebURL, ∀ dh s0 s1 : GoStr, ∀ rest : List GoStr,
      queryUnescape u.host = some dh → containsChar dh ':' = true →
      splitOnChar ':' dh = s0 :: s1 :: rest → goAtoi s1 = none →
      hostFn u = u.host) ∧
    (∀ u : DIDWebURL, ∀ dh s0 s1 : GoStr, ∀ rest : List GoStr, ∀ p : Int,
      queryUnescape u.host = some dh → containsChar dh ':' = true →
      splitOnChar ':' dh = s0 :: s1 :: rest → goAtoi s1 = some p →
      hostFn u = if 0 < p then s0 ++ ':' :: natDec p.toNat else s0) ∧
    (goParse ("did:web:localhost%3A8443".toList)).map hostFn =
      .ok ("localhost:8443".toList) := by
  refine ⟨?_, ?_, ?_, ?_, by decide⟩
  · intro u h
    simp [hostFn, h]
  · intro u dh h hc
    simp [hostFn, h, hc]
  · intro u dh s0 s1 rest h hc hs ha
    simp [hostFn, h, hc, hs, ha]
  · intro u dh s0 s1 rest p h hc hs ha
    simp [hostFn, h, hc, hs, ha]

theorem c4_host_amended_witness :
    hostFn c4WitU = "localhost".toList ∧
    hostFn ⟨"a+b".toList, [], [], []⟩ = "a+b".toList := by
  constructor
  · have h := c4_host_amended.2.2.2.1 c4WitU ("localhost:0".toList)
      ("localhost".toList) ("0".toList) [] 0 (by decide) (by decide) (by decide)
      (by decide)
    simpa using h
  · exact c4_host_amended.2.1 ⟨"a+b".toList, [], [], []⟩ ("a b".toList)
      (by decide) (by decide)

/-! ## C5 -/

/-- C5: `ParsePath` fails when the path has fewer than 2 slash-separated
segments or the final segment is not case-insensitively `did.json`;
otherwise it strips the `did.json` segment, strips one trailing
`.well-known` segment if present, rejoins the remaining segments with
`:`, prepends `did:web:` and delegates to `Parse`; and
`ParsePath("example.com/accounting/john/did.json").DID()` is
`did:web:example.com:accounting:john`. -/
theorem c5_parsePath :
    (∀ p : GoStr,
      ((splitOnChar '/' p).length < 2 ∨
        equalFold (((splitOnChar '/' p).getLast?).getD []) ("did.json".toList) =
          false) →
      goParsePath p = .error ()) ∧
    (∀ p : GoStr, 2 ≤ (splitOnChar '/' p).length →
      equalFold (((splitOnChar '/' p).getLast?).getD []) ("did.json".toList) =
        true →
      goParsePath p = goParse ("did:web:".toList ++ joinWith ':'
        (if equalFold ((((splitOnChar '/' p).dropLast).getLast?).getD [])
            (".well-known".toList)
         then ((splitOnChar '/' p).dropLast).dropLast
         else (splitOnChar '/' p).dropLast))) ∧
    (goParsePath ("example.com/accounting/john/did.json".toList)).map didString =
      .ok ("did:web:example.com:accounting:john".toList) := by
  refine ⟨?_, ?_, by decide⟩
  · intro p hp
    simp only [goParsePath]
    rcases hp with h | h
    · rw [if_pos h]
    · by_cases hlen : (splitOnChar '/' p).length < 2
      · rw [if_pos hlen]
      · rw [if_neg hlen, if_pos (by simpa using h)]
  · intro p hge hfold
    simp only [goParsePath]
    rw [if_neg (by omega), if_neg (by simpa using hfold)]

theorem c5_parsePath_witness :
    goParsePath ("example.com".toList) = .error () ∧
    goParsePath ("example.com/accounting/john/did.json".toList) =
      goParse ("did:web:".toList ++ joinWith ':'
        (if equalFold ((((splitOnChar '/'
              ("example.com/accounting/john/did.json".toList)).dropLast).getLast?).getD
              []) (".well-known".toList)
         then ((splitOnChar '/'
            ("example.com/accounting/john/did.json".toList)).dropLast).dropLast
         else (splitOnChar '/'
            ("example.com/accounting/john/did.json".toList)).dropLast)) :=
  ⟨c5_parsePath.1 ("example.com".toList) (Or.inl (by decide)),
   c5_parsePath.2.1 ("example.com/accounting/john/did.json".toList) (by decide)
     (by decide)⟩

/-! ## Escaping lemmas -/

theorem escapeChar_ne_nil (m : EscMode) (c : Char) : escapeChar m c ≠ [] := by
  unfold escapeChar
  split_ifs <;> simp

theorem length_le_escapeGo (m : EscMode) (s : GoStr) :
    s.length ≤ (escapeGo m s).length := by
  induction s with
  | nil => simp [escapeGo]
  | cons c cs ih =>
    have h1 : 1 ≤ (escapeChar m c).length :=
      List.length_pos.mpr (escapeChar_ne_nil m c)
    simp only [escapeGo, List.flatMap_cons, List.length_append, List.length_cons]
    simp only [escapeGo] at ih
    omega

theorem escapeGo_eq_self_of (m : EscMode) (s : GoStr)
    (h : ∀ c ∈ s, shouldEscape c m = false) : escapeGo m s = s := by
  induction s with
  | nil => rfl
  | cons c cs ih =>
    have hc := h c (List.mem_cons_self _ _)
    simp only [escapeGo, List.flatMap_cons]
    rw [show escapeChar m c = [c] by simp [escapeChar, hc]]
    have := ih (fun x hx => h x (List.mem_cons_of_mem _ hx))
    simp only [escapeGo] at this
    rw [this]
    rfl

theorem escapeGo_eq_self_iff (m : EscMode) (s : GoStr) :
    escapeGo m s = s ↔ ∀ c ∈ s, shouldEscape c m = false := by
  constructor
  · induction s with
    | nil => simp
    | cons c cs ih =>
      intro h x hx
      by_cases hc : shouldEscape c m = true
      · exfalso
        have hec : escapeChar m c =
            if c = ' ' ∧ m = .query then ['+']
            else ['%', upperHexDigit (c.toNat % 256 / 16),
              upperHexDigit (c.toNat % 256 % 16)] := by
          unfold escapeChar
          rw [if_pos hc]
        simp only [escapeGo, List.flatMap_cons] at h
        rw [hec] at h
        by_cases hsp : c = ' ' ∧ m = .query
        · rw [if_pos hsp] at h
          obtain ⟨hc', -⟩ := hsp
          rw [hc'] at h
          simp at h
        · rw [if_neg hsp] at h
          have hlen := length_le_escapeGo m cs
          have hl := congrArg List.length h
          simp only [List.length_append, List.length_cons, List.length_nil] at hl
          simp only [escapeGo] at hlen
          omega
      · rcases List.mem_cons.mp hx with hxc | hxcs
        · subst hxc
          exact Bool.not_eq_true _ ▸ (by simpa using hc)
        · have hcf : shouldEscape c m = false := by simpa using hc
          simp only [escapeGo, List.flatMap_cons] at h
          rw [show escapeChar m c = [c] by simp [escapeChar, hcf]] at h
          simp only [List.singleton_append, List.cons.injEq, true_and] at h
          exact ih h x hxcs
  · exact escapeGo_eq_self_of m s

theorem exists_escaped_of_ne (m : EscMode) (s : GoStr) (h : escapeGo m s ≠ s) :
    ∃ c ∈ s, shouldEscape c m = true := by
  by_contra hno
  push_neg at hno
  exact h (escapeGo_eq_self_of m s (fun c hc => by simpa using hno c hc))

theorem mem_escapeGo_bad (m : EscMode) (s : GoStr) {c : Char} (hc : c ∈ s)
    (hb : shouldEscape c m = true) :
    '+' ∈ escapeGo m s ∨ '%' ∈ escapeGo m s := by
  by_cases hsp : c = ' ' ∧ m = .query
  · refine Or.inl (List.mem_flatMap.mpr ⟨c, hc, ?_⟩)
    unfold escapeChar
    rw [if_pos hb, if_pos hsp]
    simp
  · refine Or.inr (List.mem_flatMap.mpr ⟨c, hc, ?_⟩)
    unfold escapeChar
    rw [if_pos hb, if_neg hsp]
    simp

theorem queryEscape_not_fixed {s : GoStr} (h : queryEscape s ≠ s) :
    queryEscape (queryEscape s) ≠ queryEscape s := by
  obtain ⟨c, hc, hb⟩ := exists_escaped_of_ne .query s h
  rcases mem_escapeGo_bad .query s hc hb with hp | hp <;>
    intro heq <;>
    have hfix := (escapeGo_eq_self_iff .query _).mp heq _ hp <;>
    exact absurd hfix (by decide)

theorem upperHexDigit_ne_colon (n : Nat) (h : n < 16) : upperHexDigit n ≠ ':' := by
  interval_cases n <;> decide

theorem queryEscape_no_colon (s : GoStr) : ∀ x ∈ queryEscape s, x ≠ ':' := by
  intro x hx
  simp only [queryEscape, escapeGo, List.mem_flatMap] at hx
  obtain ⟨c, hc, hmem⟩ := hx
  unfold escapeChar at hmem
  split_ifs at hmem with h1 h2
  · simp at hmem
    subst hmem
    decide
  · simp only [List.mem_cons, List.not_mem_nil, or_false] at hmem
    rcases hmem with h | h | h <;> subst h
    · decide
    · exact upperHexDigit_ne_colon _ (by omega)
    · exact upperHexDigit_ne_colon _ (by omega)
  · simp at hmem
    subst hmem
    intro hcol
    subst hcol
    exact absurd h1 (by decide)

theorem append_sep_inj {c : Char} {x y a b : GoStr}
    (hx : ∀ u ∈ x, u ≠ c) (hy : ∀ u ∈ y, u ≠ c)
    (h : x ++ c :: a = y ++ c :: b) : x = y ∧ a = b := by
  induction x generalizing y with
  | nil =>
    cases y with
    | nil => simpa using h
    | cons y0 ys =>
      simp only [List.nil_append, List.cons_append, List.cons.injEq] at h
      exact absurd h.1.symm (hy y0 (List.mem_cons_self _ _))
  | cons x0 xs ih =>
    cases y with
    | nil =>
      simp only [List.nil_append, List.cons_append, List.cons.injEq] at h
      exact absurd h.1 (hx x0 (List.mem_cons_self _ _))
    | cons y0 ys =>
      simp only [List.cons_append, List.cons.injEq] at h
      obtain ⟨h1, h2⟩ := h
      obtain ⟨hxy, hab⟩ := ih (fun u hu => hx u (List.mem_cons_of_mem _ hu))
        (fun u hu => hy u (List.mem_cons_of_mem _ hu)) h2
      exact ⟨by rw [h1, hxy], hab⟩

theorem joinWith_inj {c : Char} : ∀ {xs ys : List GoStr}, xs.length = ys.length →
    (∀ s ∈ xs, ∀ u ∈ s, u ≠ c) → (∀ s ∈ ys, ∀ u ∈ s, u ≠ c) →
    joinWith c xs = joinWith c ys → xs = ys := by
  intro xs
  induction xs with
  | nil =>
    intro ys hlen _ _ _
    cases ys with
    | nil => rfl
    | cons y ys => simp at hlen
  | cons x xs ih =>
    intro ys hlen hx hy h
    cases ys with
    | nil => simp at hlen
    | cons y ys =>
      cases xs with
      | nil =>
        cases ys with
        | nil => simpa [joinWith] using h
        | cons y2 ys2 => simp at hlen
      | cons x2 xs2 =>
        cases ys with
        | nil => simp at hlen
        | cons y2 ys2 =>
          have h' : x ++ c :: joinWith c (x2 :: xs2) =
              y ++ c :: joinWith c (y2 :: ys2) := h
          obtain ⟨hxy, hJ⟩ := append_sep_inj (hx x (List.mem_cons_self _ _))
            (hy y (List.mem_cons_self _ _)) h'
          have hrest := ih (by simpa using hlen)
            (fun s hs => hx s (List.mem_cons_of_mem _ hs))
            (fun s hs => hy s (List.mem_cons_of_mem _ hs)) hJ
          rw [hxy, hrest]

theorem map_eq_map_mem {α β : Type} {f g : α → β} {l : List α}
    (h : l.map f = l.map g) : ∀ x ∈ l, f x = g x := by
  induction l with
  | nil => simp
  | cons a l ih =>
    simp only [List.map_cons, List.cons.injEq] at h
    intro x hx
    rcases List.mem_cons.mp hx with hxa | hxl
    · subst hxa
      exact h.1
    · exact ih h.2 x hxl

/-! ## C10 -/

/-- C10: `ID()` writes the escaped form of each path segment back into the
descriptor's stored segment slice; hence the state after a call holds the
escaped parts, a second `ID()` (or `DID()`) call returns the
double-escaped string, which differs from the first result whenever
escaping changes at least one segment, and `URL()` after `ID()` builds the
resolution URL from the escaped-parts descriptor rather than the decoded
one. -/
theorem c10_id_mutation :
    ∀ u : DIDWebURL, ∀ p : GoStr, p ∈ u.parts → queryEscape p ≠ p →
      (idEff u).2.parts = u.parts.map queryEscape ∧
      (idEff (idEff u).2).1 =
        u.host ++ ':' :: joinWith ':' ((u.parts.map queryEscape).map queryEscape) ∧
      (idEff (idEff u).2).1 ≠ (idEff u).1 ∧
      urlFn (idEff u).2 = urlFn ⟨u.host, u.parts.map queryEscape, u.rawQuery, u.anchor⟩ := by
  intro u p hp hne
  have hparts_ne : u.parts ≠ [] := fun hnil => by simp [hnil] at hp
  have hmap_ne : u.parts.map queryEscape ≠ [] := by simpa using hparts_ne
  have e1 : (idEff u).1 =
      u.host ++ ':' :: joinWith ':' (u.parts.map queryEscape) := by
    simp [idEff, idString, hparts_ne]
  have e2 : (idEff (idEff u).2).1 =
      u.host ++ ':' :: joinWith ':' ((u.parts.map queryEscape).map queryEscape) := by
    simp [idEff, idMutate, idString, hmap_ne]
  refine ⟨rfl, e2, ?_, rfl⟩
  intro heq
  rw [e1, e2] at heq
  have hJcons := List.append_cancel_left heq
  injection hJcons with _ hJ
  have hcf1 : ∀ s ∈ u.parts.map queryEscape, ∀ x ∈ s, x ≠ ':' := by
    intro s hs x hx
    obtain ⟨t, _, rfl⟩ := List.mem_map.mp hs
    exact queryEscape_no_colon t x hx
  have hcf2 : ∀ s ∈ (u.parts.map queryEscape).map queryEscape, ∀ x ∈ s, x ≠ ':' := by
    intro s hs x hx
    obtain ⟨t, _, rfl⟩ := List.mem_map.mp hs
    exact queryEscape_no_colon t x hx
  have hlists := joinWith_inj (by simp) hcf2 hcf1 hJ
  rw [List.map_map] at hlists
  have hpt := map_eq_map_mem hlists p hp
  exact queryEscape_not_fixed hne hpt

theorem c10_id_mutation_witness :
    ("some+subpath".toList ∈ c10U.parts ∧
      queryEscape ("some+subpath".toList) ≠ "some+subpath".toList) ∧
    ((idEff c10U).2.parts = c10U.parts.map queryEscape ∧
      (idEff (idEff c10U).2).1 =
        c10U.host ++ ':' ::
          joinWith ':' ((c10U.parts.map queryEscape).map queryEscape) ∧
      (idEff (idEff c10U).2).1 ≠ (idEff c10U).1 ∧
      urlFn (idEff c10U).2 =
        urlFn ⟨c10U.host, c10U.parts.map queryEscape, c10U.rawQuery, c10U.anchor⟩) :=
  ⟨⟨by decide, by decide⟩,
   c10_id_mutation c10U ("some+subpath".toList) (by decide) (by decide)⟩

/-! ## Split, join, cut and trim lemmas -/

theorem splitOnChar_no_sep (c : Char) (s : GoStr) (h : ∀ x ∈ s, x ≠ c) :
    splitOnChar c s = [s] := by
  induction s with
  | nil => rfl
  | cons x xs ih =>
    unfold splitOnChar
    rw [if_neg (h x (List.mem_cons_self _ _)),
      ih (fun y hy => h y (List.mem_cons_of_mem _ hy))]

theorem splitOnChar_append_sep (c : Char) (xs ys : GoStr) (h : ∀ x ∈ xs, x ≠ c) :
    splitOnChar c (xs ++ c :: ys) = xs :: splitOnChar c ys := by
  induction xs with
  | nil => simp [splitOnChar]
  | cons x xs ih =>
    have hx := h x (List.mem_cons_self _ _)
    have hrec := ih (fun y hy => h y (List.mem_cons_of_mem _ hy))
    rw [List.cons_append]
    rw [show splitOnChar c (x :: (xs ++ c :: ys)) =
        if x = c then [] :: splitOnChar c (xs ++ c :: ys)
        else match splitOnChar c (xs ++ c :: ys) with
          | [] => [[x]]
          | h :: t => (x :: h) :: t from rfl]
    rw [if_neg hx, hrec]

theorem splitOnChar_host_segs (c : Char) (h : GoStr) (segs : List GoStr)
    (hh : ∀ x ∈ h, x ≠ c) (hs : ∀ s ∈ segs, ∀ x ∈ s, x ≠ c) :
    splitOnChar c (h ++ (segs.map (fun t => c :: t)).flatten) = h :: segs := by
  induction segs generalizing h with
  | nil => simpa using splitOnChar_no_sep c h hh
  | cons t ts ih =>
    have hshape : h ++ ((t :: ts).map (fun t => c :: t)).flatten =
        h ++ c :: (t ++ (ts.map (fun t => c :: t)).flatten) := by
      simp
    rw [hshape, splitOnChar_append_sep c h _ hh]
    have := ih t (fun x hx => hs t (List.mem_cons_self _ _) x hx)
      (fun s hsmem x hx => hs s (List.mem_cons_of_mem _ hsmem) x hx)
    rw [this]

theorem splitOnChar_joinWith (c : Char) (ts : List GoStr) (hne : ts ≠ [])
    (h : ∀ t ∈ ts, ∀ x ∈ t, x ≠ c) :
    splitOnChar c (joinWith c ts) = ts := by
  induction ts with
  | nil => exact absurd rfl hne
  | cons t ts ih =>
    cases ts with
    | nil => exact splitOnChar_no_sep c t (h t (List.mem_cons_self _ _))
    | cons t2 ts2 =>
      have hJ : joinWith c (t :: t2 :: ts2) = t ++ c :: joinWith c (t2 :: ts2) := rfl
      rw [hJ, splitOnChar_append_sep c t _ (h t (List.mem_cons_self _ _)),
        ih (by simp) (fun s hsmem x hx => h s (List.mem_cons_of_mem _ hsmem) x hx)]

theorem flatten_sep_eq_joinWith (c : Char) (segs : List GoStr) (hne : segs ≠ []) :
    (segs.map (fun t => c :: t)).flatten = c :: joinWith c segs := by
  induction segs with
  | nil => exact absurd rfl hne
  | cons t ts ih =>
    cases ts with
    | nil => simp [joinWith]
    | cons t2 ts2 =>
      have h2 := ih (by simp)
      simp only [List.map_cons, List.flatten_cons] at h2 ⊢
      rw [h2]
      rfl

theorem joinWith_append_single (c : Char) (ps : List GoStr) (d : GoStr)
    (hne : ps ≠ []) :
    joinWith c (ps ++ [d]) = joinWith c ps ++ c :: d := by
  induction ps with
  | nil => exact absurd rfl hne
  | cons p ps ih =>
    cases ps with
    | nil => rfl
    | cons p2 ps2 =>
      have h2 := ih (by simp)
      have hshape : joinWith c ((p :: p2 :: ps2) ++ [d]) =
          p ++ c :: joinWith c ((p2 :: ps2) ++ [d]) := rfl
      rw [hshape, h2]
      simp [joinWith]

theorem mem_joinWith {c x : Char} : ∀ {ts : List GoStr}, x ∈ joinWith c ts →
    x = c ∨ ∃ t ∈ ts, x ∈ t := by
  intro ts
  induction ts with
  | nil => intro h; simp [joinWith] at h
  | cons t ts ih =>
    intro hx
    cases ts with
    | nil => exact Or.inr ⟨t, List.mem_cons_self _ _, hx⟩
    | cons t2 ts2 =>
      have hshape : joinWith c (t :: t2 :: ts2) = t ++ c :: joinWith c (t2 :: ts2) := rfl
      rw [hshape] at hx
      rcases List.mem_append.mp hx with hx | hx
      · exact Or.inr ⟨t, List.mem_cons_self _ _, hx⟩
      · rcases List.mem_cons.mp hx with hx | hx
        · exact Or.inl hx
        · rcases ih hx with hc | ⟨t3, ht3, hxt3⟩
          · exact Or.inl hc
          · exact Or.inr ⟨t3, List.mem_cons_of_mem _ ht3, hxt3⟩

theorem joinWith_ne_nil {c : Char} {ts : List GoStr} (hne : ts ≠ [])
    (h1 : ∀ t ∈ ts, t ≠ []) : joinWith c ts ≠ [] := by
  cases ts with
  | nil => exact absurd rfl hne
  | cons t ts =>
    cases ts with
    | nil => exact h1 t (List.mem_cons_self _ _)
    | cons t2 ts2 =>
      have hshape : joinWith c (t :: t2 :: ts2) = t ++ c :: joinWith c (t2 :: ts2) := rfl
      rw [hshape]
      simp

theorem joinWith_head? {c : Char} {t : GoStr} {ts : List GoStr} (ht : t ≠ []) :
    (joinWith c (t :: ts)).head? = t.head? := by
  cases ts with
  | nil => rfl
  | cons t2 ts2 =>
    have hshape : joinWith c (t :: t2 :: ts2) = t ++ c :: joinWith c (t2 :: ts2) := rfl
    rw [hshape]
    cases t with
    | nil => exact absurd rfl ht
    | cons a t' => rfl

theorem joinWith_getLast? {c : Char} : ∀ {ts : List GoStr}, ts ≠ [] →
    (∀ t ∈ ts, t ≠ []) → ∃ tl ∈ ts, (joinWith c ts).getLast? = tl.getLast? := by
  intro ts
  induction ts with
  | nil => intro h; exact absurd rfl h
  | cons t ts ih =>
    intro _ hall
    cases ts with
    | nil => exact ⟨t, List.mem_cons_self _ _, rfl⟩
    | cons t2 ts2 =>
      obtain ⟨tl, htl, heq⟩ := ih (by simp)
        (fun s hs => hall s (List.mem_cons_of_mem _ hs))
      refine ⟨tl, List.mem_cons_of_mem _ htl, ?_⟩
      have hshape : joinWith c (t :: t2 :: ts2) = t ++ c :: joinWith c (t2 :: ts2) := rfl
      have hJne : joinWith c (t2 :: ts2) ≠ [] :=
        joinWith_ne_nil (by simp) (fun s hs => hall s (List.mem_cons_of_mem _ hs))
      rw [hshape, List.getLast?_append_cons]
      cases hJ : joinWith c (t2 :: ts2) with
      | nil => exact absurd hJ hJne
      | cons a l =>
        rw [hJ] at heq
        rw [List.getLast?_cons_cons, heq]

theorem cutFirst_no (c : Char) (s : GoStr) (h : ∀ x ∈ s, x ≠ c) :
    cutFirst c s = (s, none) := by
  induction s with
  | nil => rfl
  | cons x xs ih =>
    unfold cutFirst
    rw [if_neg (h x (List.mem_cons_self _ _)),
      ih (fun y hy => h y (List.mem_cons_of_mem _ hy))]

theorem cutFirst_append_sep (c : Char) (xs ys : GoStr) (h : ∀ x ∈ xs, x ≠ c) :
    cutFirst c (xs ++ c :: ys) = (xs, some ys) := by
  induction xs with
  | nil => simp [cutFirst]
  | cons x xs ih =>
    rw [List.cons_append]
    unfold cutFirst
    rw [if_neg (h x (List.mem_cons_self _ _)),
      ih (fun y hy => h y (List.mem_cons_of_mem _ hy))]

theorem cutLast_no (c : Char) (s : GoStr) (h : ∀ x ∈ s, x ≠ c) :
    cutLast c s = none := by
  unfold cutLast
  rw [cutFirst_no c s.reverse (fun x hx => h x (List.mem_reverse.mp hx))]

theorem trimLeftChar_no_op {c : Char} {s : GoStr}
    (h : ∀ x, s.head? = some x → x ≠ c) : trimLeftChar c s = s := by
  cases s with
  | nil => rfl
  | cons x xs =>
    unfold trimLeftChar
    rw [if_neg (h x rfl)]

theorem contains_eq_false_of {c : Char} {s : GoStr} (h : ∀ x ∈ s, x ≠ c) :
    s.contains c = false := by
  rw [List.contains_eq_any_beq]
  simp only [List.any_eq_false]
  intro x hx
  simpa using Ne.symm (h x hx)

/-! ## Character class facts -/

theorem shouldEscape_false_of_alphaNum {c : Char} (h : isAlphaNum c = true)
    (m : EscMode) : shouldEscape c m = false := by
  unfold shouldEscape
  rw [if_pos h]

theorem simpleHostChar_mem {c : Char} (h : simpleHostChar c = true) :
    isAlphaNum c = true ∨ c ∈ (['.', '-', '_', '~'] : List Char) := by
  simp only [simpleHostChar, decide_eq_true_eq] at h
  exact h.1

theorem simpleHostChar_bounds {c : Char} (h : simpleHostChar c = true) :
    0x20 ≤ c.toNat ∧ c.toNat < 0x7f := by
  simp only [simpleHostChar, decide_eq_true_eq] at h
  exact h.2

theorem alphaNum_ne {c d : Char} (hc : isAlphaNum c = true)
    (hd : isAlphaNum d = false) : c ≠ d := by
  intro he
  rw [he, hd] at hc
  exact Bool.noConfusion hc

theorem simpleHostChar_shouldEscape {c : Char} (h : simpleHostChar c = true)
    (m : EscMode) : shouldEscape c m = false := by
  rcases simpleHostChar_mem h with halnum | hmem
  · exact shouldEscape_false_of_alphaNum halnum m
  · fin_cases hmem <;> cases m <;> decide

theorem simpleHostChar_ne {c : Char} (h : simpleHostChar c = true) :
    c ≠ ':' ∧ c ≠ '/' ∧ c ≠ '?' ∧ c ≠ '#' ∧ c ≠ '@' ∧ c ≠ '[' ∧ c ≠ '%' ∧
      c ≠ '+' := by
  rcases simpleHostChar_mem h with halnum | hmem
  · exact ⟨alphaNum_ne halnum (by decide), alphaNum_ne halnum (by decide),
      alphaNum_ne halnum (by decide), alphaNum_ne halnum (by decide),
      alphaNum_ne halnum (by decide), alphaNum_ne halnum (by decide),
      alphaNum_ne halnum (by decide), alphaNum_ne halnum (by decide)⟩
  · fin_cases hmem <;>
      exact ⟨by decide, by decide, by decide, by decide, by decide, by decide,
        by decide, by decide⟩

theorem goodSegChar_facts {c : Char} (h : goodSegChar c = true) :
    0x20 ≤ c.toNat ∧ c.toNat < 0x7f ∧ c ≠ '/' ∧ c ≠ '?' ∧ c ≠ '#' ∧ c ≠ '%' := by
  simpa [goodSegChar] using h

theorem pathSafeChar_good {c : Char} (h : pathSafeChar c = true) :
    goodSegChar c = true := by
  simp only [pathSafeChar, decide_eq_true_eq] at h
  obtain ⟨hesc, hslash, hb1, hb2⟩ := h
  simp only [goodSegChar, decide_eq_true_eq]
  refine ⟨hb1, hb2, hslash, ?_, ?_, ?_⟩ <;> intro he <;> rw [he] at hesc <;>
    exact absurd hesc (by decide)

/-! ## Unescape and escape round-trip lemmas -/

theorem unescapeGo_cons_plus (m : EscMode) (cs : GoStr) :
    unescapeGo m ('+' :: cs) =
      (unescapeGo m cs).map ((if m = .query then ' ' else '+') :: ·) := rfl

theorem unescapeGo_pct (m : EscMode) (a b : Char) (rest : GoStr) :
    unescapeGo m ('%' :: a :: b :: rest) =
      (if isHexDigit a = true ∧ isHexDigit b = true then
        if m = .host ∧ unhex a < 8 ∧ ¬(a = '2' ∧ b = '5') then none
        else if m = .zone ∧ ¬(a = '2' ∧ b = '5') ∧
            (16 * unhex a + unhex b) ≠ ' '.toNat ∧
            shouldEscape (Char.ofNat (16 * unhex a + unhex b)) .host = true then none
        else (unescapeGo m rest).map (Char.ofNat (16 * unhex a + unhex b) :: ·)
      else none) := rfl

theorem unescapeGo_cons_default (m : EscMode) {c : Char} (cs : GoStr)
    (h1 : c ≠ '%') (h2 : c ≠ '+')
    (h3 : ¬((m = .host ∨ m = .zone) ∧ c.toNat < 0x80 ∧ shouldEscape c m = true)) :
    unescapeGo m (c :: cs) = (unescapeGo m cs).map (c :: ·) := by
  rw [unescapeGo.eq_def]
  split
  · rename_i heq
    exact absurd heq (by simp)
  · rename_i rest heq
    exact absurd (List.cons.inj heq).1 h1
  · rename_i rest heq
    exact absurd (List.cons.inj heq).1 h2
  · rename_i c2 rest heq
    obtain ⟨hc2, hrest⟩ := List.cons.inj heq
    subst hc2
    subst hrest
    rw [if_neg h3]

theorem unescapeGo_id_of (m : EscMode) (hm : m ≠ .query) (s : GoStr)
    (h : ∀ c ∈ s, c ≠ '%' ∧
      ¬((m = .host ∨ m = .zone) ∧ c.toNat < 0x80 ∧ shouldEscape c m = true)) :
    unescapeGo m s = some s := by
  induction s with
  | nil => rfl
  | cons c cs ih =>
    obtain ⟨hpc, hhost⟩ := h c (List.mem_cons_self _ _)
    have ihs := ih (fun x hx => h x (List.mem_cons_of_mem _ hx))
    by_cases hplus : c = '+'
    · subst hplus
      rw [unescapeGo_cons_plus, ihs, if_neg hm]
      rfl
    · rw [unescapeGo_cons_default m cs hpc hplus hhost, ihs]
      rfl

theorem unescapeGo_query_id (s : GoStr) (h : ∀ c ∈ s, c ≠ '%' ∧ c ≠ '+') :
    queryUnescape s = some s := by
  induction s with
  | nil => rfl
  | cons c cs ih =>
    obtain ⟨hpc, hplus⟩ := h c (List.mem_cons_self _ _)
    have ihs := ih (fun x hx => h x (List.mem_cons_of_mem _ hx))
    rw [queryUnescape] at ihs ⊢
    rw [unescapeGo_cons_default .query cs hpc hplus (by simp), ihs]
    rfl

theorem unhex_upperHexDigit (n : Nat) (h : n < 16) : unhex (upperHexDigit n) = n := by
  interval_cases n <;> decide

theorem isHexDigit_upperHexDigit (n : Nat) (h : n < 16) :
    isHexDigit (upperHexDigit n) = true := by
  interval_cases n <;> decide

theorem queryUnescape_queryEscape (t : GoStr) (h : ∀ c ∈ t, c.toNat < 256) :
    queryUnescape (queryEscape t) = some t := by
  induction t with
  | nil => rfl
  | cons c cs ih =>
    have hc := h c (List.mem_cons_self _ _)
    have ihs := ih (fun x hx => h x (List.mem_cons_of_mem _ hx))
    have hflat : queryEscape (c :: cs) = escapeChar .query c ++ queryEscape cs := by
      simp [queryEscape, escapeGo]
    rw [queryUnescape, hflat]
    by_cases hesc : shouldEscape c .query = true
    · by_cases hsp : c = ' '
      · subst hsp
        rw [show escapeChar .query ' ' = ['+'] from rfl, List.singleton_append,
          unescapeGo_cons_plus, if_pos rfl]
        rw [queryUnescape] at ihs
        rw [ihs]
        rfl
      · have hb : c.toNat % 256 = c.toNat := Nat.mod_eq_of_lt hc
        rw [show escapeChar .query c =
            ['%', upperHexDigit (c.toNat % 256 / 16),
              upperHexDigit (c.toNat % 256 % 16)] from by
          simp [escapeChar, hesc, hsp]]
        rw [show (['%', upperHexDigit (c.toNat % 256 / 16),
            upperHexDigit (c.toNat % 256 % 16)] : GoStr) ++ queryEscape cs =
          '%' :: upperHexDigit (c.toNat % 256 / 16) ::
            upperHexDigit (c.toNat % 256 % 16) :: queryEscape cs from rfl]
        rw [unescapeGo_pct]
        rw [if_pos ⟨isHexDigit_upperHexDigit _ (by omega),
          isHexDigit_upperHexDigit _ (by omega)⟩]
        rw [if_neg (by simp), if_neg (by simp)]
        have hv : 16 * unhex (upperHexDigit (c.toNat % 256 / 16)) +
            unhex (upperHexDigit (c.toNat % 256 % 16)) = c.toNat := by
          rw [unhex_upperHexDigit _ (by omega), unhex_upperHexDigit _ (by omega)]
          omega
        rw [hv, Char.ofNat_toNat]
        rw [queryUnescape] at ihs
        rw [ihs]
        rfl
    · have hcf : shouldEscape c .query = false := by simpa using hesc
      rw [show escapeChar .query c = [c] from by simp [escapeChar, hcf],
        List.singleton_append]
      have hnp : c ≠ '%' := fun he => by rw [he] at hcf; exact absurd hcf (by decide)
      have hnplus : c ≠ '+' := fun he => by rw [he] at hcf; exact absurd hcf (by decide)
      rw [unescapeGo_cons_default .query _ hnp hnplus (by simp)]
      rw [queryUnescape] at ihs
      rw [ihs]
      rfl

theorem escapeGo_ne_nil (m : EscMode) {t : GoStr} (h : t ≠ []) :
    escapeGo m t ≠ [] := by
  cases t with
  | nil => exact absurd rfl h
  | cons c cs =>
    simp only [escapeGo, List.flatMap_cons]
    intro hcontra
    exact escapeChar_ne_nil m c (List.append_eq_nil.mp hcontra).1

theorem mapM_queryUnescape_escape (ts : List GoStr)
    (h : ∀ t ∈ ts, ∀ c ∈ t, c.toNat < 256) :
    (ts.map queryEscape).mapM queryUnescape = some ts := by
  induction ts with
  | nil => rfl
  | cons t ts ih =>
    rw [List.map_cons, List.mapM_cons,
      queryUnescape_queryEscape t (h t (List.mem_cons_self _ _)),
      ih (fun s hs => h s (List.mem_cons_of_mem _ hs))]
    rfl

/-! ## `net/url` parse of the clean URLs the codec builds -/

theorem stripHttps_append (X : GoStr) :
    stripHttpsScheme ("https://".toList ++ X) = some X := rfl

theorem parseHost_simple (H : GoStr) (hH : ∀ c ∈ H, simpleHostChar c = true) :
    parseHost H = some H := by
  have hlb : H.head? ≠ some '[' := by
    cases H with
    | nil => simp
    | cons h0 H2 =>
      intro hcon
      simp only [List.head?_cons, Option.some.injEq] at hcon
      exact (simpleHostChar_ne (hH h0 (List.mem_cons_self _ _))).2.2.2.2.2.1 hcon
  have hnc : ∀ c ∈ H, c ≠ ':' := fun c hc => (simpleHostChar_ne (hH c hc)).1
  unfold parseHost
  rw [if_neg hlb, cutLast_no ':' H hnc]
  exact unescapeGo_id_of .host (by decide) H (fun c hc =>
    ⟨(simpleHostChar_ne (hH c hc)).2.2.2.2.2.2.1,
     fun hcon => by
       rw [simpleHostChar_shouldEscape (hH c hc)] at hcon
       exact Bool.noConfusion hcon.2.2⟩)

theorem parseAuthority_simple (H : GoStr) (hH : ∀ c ∈ H, simpleHostChar c = true) :
    parseAuthority H = some (none, H) := by
  have hna : ∀ c ∈ H, c ≠ '@' := fun c hc => (simpleHostChar_ne (hH c hc)).2.2.2.2.1
  unfold parseAuthority
  rw [cutLast_no '@' H hna, parseHost_simple H hH]
  rfl

theorem goURLParse_clean (H : GoStr) (ts : List GoStr)
    (hH : ∀ c ∈ H, simpleHostChar c = true)
    (hts : ∀ t ∈ ts, t ≠ [] ∧ ∀ c ∈ t, goodSegChar c = true) :
    goURLParse ("https://".toList ++ H ++ '/' :: joinWith '/' ts) =
      some ⟨none, H, '/' :: joinWith '/' ts,
        if escapeGo .path ('/' :: joinWith '/' ts) = '/' :: joinWith '/' ts
          then [] else '/' :: joinWith '/' ts,
        false, [], [], []⟩ := by
  have hrest : ∀ x ∈ H ++ '/' :: joinWith '/' ts,
      x ≠ '#' ∧ x ≠ '?' ∧ 0x20 ≤ x.toNat ∧ x.toNat < 0x7f := by
    intro x hx
    rcases List.mem_append.mp hx with hxH | hxJ
    · have hprops := simpleHostChar_ne (hH x hxH)
      obtain ⟨b1, b2⟩ := simpleHostChar_bounds (hH x hxH)
      exact ⟨hprops.2.2.2.1, hprops.2.2.1, b1, b2⟩
    · rcases List.mem_cons.mp hxJ with hxe | hxJ2
      · subst hxe
        exact ⟨by decide, by decide, by decide, by decide⟩
      · rcases mem_joinWith hxJ2 with hxc | ⟨t, htm, hxt⟩
        · subst hxc
          exact ⟨by decide, by decide, by decide, by decide⟩
        · obtain ⟨b1, b2, -, h4, h3, -⟩ := goodSegChar_facts ((hts t htm).2 x hxt)
          exact ⟨h3, h4, b1, b2⟩
  have hfrag : cutFirst '#' ("https://".toList ++ (H ++ '/' :: joinWith '/' ts)) =
      ("https://".toList ++ (H ++ '/' :: joinWith '/' ts), none) := by
    apply cutFirst_no
    intro x hx
    rcases List.mem_append.mp hx with hxs | hxr
    · fin_cases hxs <;> decide
    · exact (hrest x hxr).1
  have hctl : containsCTL ("https://".toList ++ (H ++ '/' :: joinWith '/' ts)) =
      false := by
    unfold containsCTL
    rw [List.any_eq_false]
    intro x hx
    rcases List.mem_append.mp hx with hxs | hxr
    · fin_cases hxs <;> decide
    · obtain ⟨-, -, b1, b2⟩ := hrest x hxr
      simp only [decide_eq_true_eq]
      omega
  have hq1 : ¬((H ++ '/' :: joinWith '/' ts).getLast? = some '?' ∧
      ¬((H ++ '/' :: joinWith '/' ts).dropLast.contains '?' = true)) := by
    rintro ⟨hlast, -⟩
    have hmemq : ('?' : Char) ∈ H ++ '/' :: joinWith '/' ts := by
      have hopt : ('?' : Char) ∈ (H ++ '/' :: joinWith '/' ts).getLast? := by
        rw [hlast]
        rfl
      obtain ⟨hne, heq⟩ := List.mem_getLast?_eq_getLast hopt
      rw [heq]
      exact List.getLast_mem hne
    exact (hrest '?' hmemq).2.1 rfl
  have hq2 : cutFirst '?' (H ++ '/' :: joinWith '/' ts) =
      (H ++ '/' :: joinWith '/' ts, none) :=
    cutFirst_no _ _ (fun x hx => (hrest x hx).2.1)
  have hauth : cutFirst '/' (H ++ '/' :: joinWith '/' ts) =
      (H, some (joinWith '/' ts)) :=
    cutFirst_append_sep '/' H _ (fun x hx => (simpleHostChar_ne (hH x hx)).2.1)
  have hpa := parseAuthority_simple H hH
  have hpath : unescapeGo .path ('/' :: joinWith '/' ts) =
      some ('/' :: joinWith '/' ts) := by
    apply unescapeGo_id_of .path (by decide)
    intro c hc
    refine ⟨?_, by simp⟩
    rcases List.mem_cons.mp hc with hce | hcj
    · subst hce
      decide
    · rcases mem_joinWith hcj with hcc | ⟨t, htm, hct⟩
      · subst hcc
        decide
      · exact (goodSegChar_facts ((hts t htm).2 c hct)).2.2.2.2.2
  rw [List.append_assoc]
  simp only [goURLParse, hfrag, hctl, stripHttps_append, Bool.false_eq_true,
    if_false, hq2, hauth, hpa, hpath, if_neg hq1]

/-! ## `URL.String` of the clean parse results -/

theorem urlString_clean (H : GoStr) (P : GoStr)
    (hH : ∀ c ∈ H, simpleHostChar c = true)
    (hPhead : P.head? = some '/')
    (hPsafe : ∀ c ∈ P, shouldEscape c .path = false) :
    urlString ⟨none, H, P, if escapeGo .path P = P then [] else P,
      false, [], [], []⟩ = "https://".toList ++ H ++ P := by
  have hesc : escapeGo .path P = P := escapeGo_eq_self_of _ _ hPsafe
  have hstar : P ≠ ['*'] := by
    intro hcon
    rw [hcon] at hPhead
    exact absurd hPhead (by decide)
  have hep : escapedPath ⟨none, H, P, if escapeGo .path P = P then [] else P,
      false, [], [], []⟩ = P := by
    unfold escapedPath
    rw [if_pos hesc]
    rw [if_neg (by simp), if_neg hstar]
    exact hesc
  simp only [urlString]
  rw [hep]
  rw [escapeGo_eq_self_of .host H
    (fun c hc => simpleHostChar_shouldEscape (hH c hc) .host)]
  rw [if_neg (fun hcon => hcon.2.1 hPhead)]
  simp

/-! ## Recovering the segments from the parsed URL path -/

theorem split_trim_join (ts : List GoStr) (hne : ts ≠ [])
    (h : ∀ t ∈ ts, t ≠ [] ∧ ∀ c ∈ t, c ≠ '/') :
    splitOnChar '/' (trimChar '/' ('/' :: joinWith '/' ts)) = ts := by
  obtain ⟨tl, htlm, hlasteq⟩ := joinWith_getLast? (c := '/') hne
    (fun t ht => (h t ht).1)
  have htlne : tl ≠ [] := (h tl htlm).1
  have hlast2 : (joinWith '/' ts).getLast? = some (tl.getLast htlne) := by
    rw [hlasteq]
    exact List.getLast?_eq_getLast_of_ne_nil htlne
  have hxl_ne : tl.getLast htlne ≠ '/' :=
    (h tl htlm).2 _ (List.getLast_mem htlne)
  have hhead : ∀ x, (joinWith '/' ts).head? = some x → x ≠ '/' := by
    cases ts with
    | nil => exact absurd rfl hne
    | cons t1 ts1 =>
      obtain ⟨ht1ne, ht1c⟩ := h t1 (List.mem_cons_self _ _)
      intro x hx
      rw [joinWith_head? ht1ne] at hx
      cases t1 with
      | nil => exact absurd rfl ht1ne
      | cons a t1tl =>
        simp only [List.head?_cons, Option.some.injEq] at hx
        exact hx ▸ ht1c a (List.mem_cons_self _ _)
  have htrim : trimChar '/' ('/' :: joinWith '/' ts) = joinWith '/' ts := by
    unfold trimChar
    have hinner : trimLeftChar '/' (('/' :: joinWith '/' ts).reverse) =
        ('/' :: joinWith '/' ts).reverse := by
      apply trimLeftChar_no_op
      intro x hx
      rw [List.reverse_cons, List.head?_append, List.head?_reverse, hlast2,
        Option.or_some] at hx
      simp only [Option.some.injEq] at hx
      exact hx ▸ hxl_ne
    rw [hinner, List.reverse_reverse]
    rw [show trimLeftChar '/' ('/' :: joinWith '/' ts) =
        trimLeftChar '/' (joinWith '/' ts) from rfl]
    exact trimLeftChar_no_op hhead
  rw [htrim]
  exact splitOnChar_joinWith '/' ts hne (fun t ht x hx => (h t ht).2 x hx)

/-! ## `didweb.Parse` on canonically escaped identifiers -/

theorem goParse_clean (host : GoStr) (ts : List GoStr)
    (_hhost_ne : host ≠ []) (hhost : ∀ c ∈ host, simpleHostChar c = true)
    (hts : ∀ t ∈ ts, t ≠ [] ∧ ∀ c ∈ t, goodSegChar c = true) :
    goParse ("did:web:".toList ++ host ++
        (ts.map (fun t => ':' :: queryEscape t)).flatten) =
      .ok ⟨host, ts, [], []⟩ := by
  have hnc : ∀ c ∈ host, c ≠ ':' := fun c hc => (simpleHostChar_ne (hhost c hc)).1
  have hsegc : ∀ s ∈ ts.map queryEscape, ∀ x ∈ s, x ≠ ':' := by
    intro s hs x hx
    obtain ⟨t, -, rfl⟩ := List.mem_map.mp hs
    exact queryEscape_no_colon t x hx
  have hflat : (ts.map (fun t => ':' :: queryEscape t)).flatten =
      ((ts.map queryEscape).map (fun s => ':' :: s)).flatten := by
    rw [List.map_map]
    rfl
  have hsplit : splitOnChar ':' ("did:web:".toList ++ host ++
      (ts.map (fun t => ':' :: queryEscape t)).flatten) =
      "did".toList :: "web".toList :: host :: ts.map queryEscape := by
    rw [List.append_assoc]
    rw [show "did:web:".toList ++
        (host ++ (ts.map (fun t => ':' :: queryEscape t)).flatten) =
        "did".toList ++ ':' :: ("web".toList ++ ':' ::
          (host ++ (ts.map (fun t => ':' :: queryEscape t)).flatten)) from rfl]
    rw [splitOnChar_append_sep ':' _ _ (by decide),
      splitOnChar_append_sep ':' _ _ (by decide), hflat,
      splitOnChar_host_segs ':' host (ts.map queryEscape) hnc hsegc]
  have hfilter : (ts.map queryEscape).filter (· ≠ []) = ts.map queryEscape := by
    rw [List.filter_eq_self]
    intro s hs
    obtain ⟨t, htm, rfl⟩ := List.mem_map.mp hs
    simpa using escapeGo_ne_nil .query (hts t htm).1
  have hmapm : (ts.map queryEscape).mapM queryUnescape = some ts :=
    mapM_queryUnescape_escape ts (fun t htm c hc => by
      have hb := (goodSegChar_facts ((hts t htm).2 c hc)).2.1
      omega)
  have hu1 : queryUnescape host = some host :=
    unescapeGo_query_id host (fun c hc =>
      ⟨(simpleHostChar_ne (hhost c hc)).2.2.2.2.2.2.1,
       (simpleHostChar_ne (hhost c hc)).2.2.2.2.2.2.2⟩)
  have hu2 : containsChar host ':' = false := contains_eq_false_of hnc
  have hhostFn : hostFn ⟨host, [], [], []⟩ = host := by
    simp only [hostFn, hu1, hu2, Bool.false_eq_true, if_false]
  have hurl := goURLParse_clean host ts hhost hts
  simp only [goParse, hsplit, List.length_cons, List.getD_cons_zero,
    List.getD_cons_succ, List.drop_succ_cons, List.drop_zero, hfilter, hmapm,
    hhostFn, hurl]
  rw [if_neg (by omega), if_neg (by simp)]
  cases ts with
  | nil => simp
  | cons t0 ts0 =>
    rw [if_pos (by simp)]
    rw [split_trim_join (t0 :: ts0) (by simp) (fun t htm =>
      ⟨(hts t htm).1,
       fun c hc => (goodSegChar_facts ((hts t htm).2 c hc)).2.2.1⟩)]

/-! ## C1 -/

/-- C1 counterexample: the identifier `did:web:example.com:%41` matches the
claimed form (its one segment `%41` contains no raw `:`), yet
`Parse(id).DID()` is `did:web:example.com:A`, not the original — escaping
is not re-applied on output for segments that are not canonically
escaped. -/
theorem c1_counterexample :
    (goParse ("did:web:example.com:%41".toList)).map didString =
      .ok ("did:web:example.com:A".toList) ∧
    ("did:web:example.com:A".toList : GoStr) ≠
      "did:web:example.com:%41".toList := by decide

/-- C1 (amended): the round-trip law holds for identifiers whose segments
are canonically escaped: for every host of unreserved bytes and every
segment list written as the query-escape of printable ASCII text free of
`/`, `?`, `#`, `%`, parsing the identifier and printing it with `DID()`
reproduces it exactly; in particular
`did:web:example.com:path:some%2Bsubpath` parses to the path segments
`path` and `some+subpath` and prints back unchanged. -/
theorem c1_roundtrip_amended :
    (∀ host : GoStr, ∀ ts : List GoStr,
      host ≠ [] → (∀ c ∈ host, simpleHostChar c = true) →
      (∀ t ∈ ts, t ≠ [] ∧ ∀ c ∈ t, goodSegChar c = true) →
      (goParse ("did:web:".toList ++ host ++
          (ts.map (fun t => ':' :: queryEscape t)).flatten)).map didString =
        .ok ("did:web:".toList ++ host ++
          (ts.map (fun t => ':' :: queryEscape t)).flatten)) ∧
    (goParse ("did:web:example.com:path:some%2Bsubpath".toList)).map
        (fun u => (u.parts, didString u)) =
      .ok (["path".toList, "some+subpath".toList],
        "did:web:example.com:path:some%2Bsubpath".toList) := by
  refine ⟨?_, by decide⟩
  intro host ts hne hhost hts
  rw [goParse_clean host ts hne hhost hts]
  simp only [Except.map]
  congr 1
  cases ts with
  | nil => simp [didString, idString]
  | cons t0 ts0 =>
    have hflat2 : ((t0 :: ts0).map (fun t => ':' :: queryEscape t)).flatten =
        ':' :: joinWith ':' ((t0 :: ts0).map queryEscape) := by
      rw [show ((t0 :: ts0).map (fun t => ':' :: queryEscape t)) =
          (((t0 :: ts0).map queryEscape).map (fun s => ':' :: s)) from by
        rw [List.map_map]
        rfl]
      exact flatten_sep_eq_joinWith ':' _ (by simp)
    rw [hflat2]
    simp [didString, idString, List.append_assoc]

def c1WitHost : GoStr := "example.com".toList

def c1WitSegs : List GoStr := ["path".toList, "some+subpath".toList]

theorem c1_roundtrip_amended_witness :
    (goParse ("did:web:".toList ++ c1WitHost ++
        (c1WitSegs.map (fun t => ':' :: queryEscape t)).flatten)).map didString =
      .ok ("did:web:".toList ++ c1WitHost ++
        (c1WitSegs.map (fun t => ':' :: queryEscape t)).flatten) :=
  c1_roundtrip_amended.1 c1WitHost c1WitSegs (by decide) (by decide) (by decide)

/-! ## C6 -/

/-- C6 counterexample: the descriptor parsed from `did:web:example.com:a%20b`
has the decoded segment `a b`, but `URL()` re-escapes the path when
printing, producing `https://example.com/a%20b/did.json` rather than the
claimed `https://example.com/a b/did.json` built from the decoded
segments. -/
theorem c6_counterexample :
    (goParse ("did:web:example.com:a%20b".toList)).map urlFn =
      .ok ("https://example.com/a%20b/did.json".toList) ∧
    ("https://example.com/a%20b/did.json".toList : GoStr) ≠
      "https://example.com/a b/did.json".toList := by decide

theorem urlFn_clean_general (H : GoStr) (ps : List GoStr)
    (hH : ∀ c ∈ H, simpleHostChar c = true)
    (hps_ne : ps ≠ [])
    (hps : ∀ t ∈ ps, t ≠ [] ∧ ∀ c ∈ t, pathSafeChar c = true) :
    (match goURLParse ("https://".toList ++ H ++ '/' ::
        (joinWith '/' ps ++ "/did.json".toList)) with
     | none => ([] : GoStr)
     | some r => urlString r) =
      "https://".toList ++ H ++ '/' :: (joinWith '/' ps ++ "/did.json".toList) := by
  have hstr : ('/' : Char) :: (joinWith '/' ps ++ "/did.json".toList) =
      '/' :: joinWith '/' (ps ++ ["did.json".toList]) := by
    rw [joinWith_append_single '/' ps ("did.json".toList) hps_ne]
    rfl
  have hts2 : ∀ t ∈ ps ++ ["did.json".toList],
      t ≠ [] ∧ ∀ c ∈ t, goodSegChar c = true := by
    intro t htm
    rcases List.mem_append.mp htm with htm | htm
    · obtain ⟨h1, h2⟩ := hps t htm
      exact ⟨h1, fun c hc => pathSafeChar_good (h2 c hc)⟩
    · simp only [List.mem_singleton] at htm
      subst htm
      exact ⟨by decide, by decide⟩
  have hsafe : ∀ c ∈ ('/' :: joinWith '/' (ps ++ ["did.json".toList]) : GoStr),
      shouldEscape c .path = false := by
    intro c hc
    rcases List.mem_cons.mp hc with hce | hcj
    · subst hce
      decide
    · rcases mem_joinWith hcj with hcc | ⟨t, htm, hct⟩
      · subst hcc
        decide
      · rcases List.mem_append.mp htm with htm | htm
        · have h2 := (hps t htm).2 c hct
          simp only [pathSafeChar, decide_eq_true_eq] at h2
          exact h2.1
        · simp only [List.mem_singleton] at htm
          subst htm
          rw [show ("did.json".toList : GoStr) =
            ['d', 'i', 'd', '.', 'j', 's', 'o', 'n'] from rfl] at hct
          simp only [List.mem_cons, List.not_mem_nil, or_false] at hct
          rcases hct with rfl | rfl | rfl | rfl | rfl | rfl | rfl | rfl <;> decide
  rw [hstr, goURLParse_clean H (ps ++ ["did.json".toList]) hH hts2]
  exact urlString_clean H _ hH rfl hsafe

/-- C6 (amended): for a descriptor whose `Host()` is a nonempty unreserved
host and whose decoded segments consist of bytes the path encoder leaves
verbatim, `URL()` returns `https://` + `Host()` + `/` + the slash-joined
segments + `/did.json`, defaulting the segment list to `.well-known` when
it is empty; segments containing other bytes are re-escaped (see the
counterexample).  In particular `Parse("did:web:example.com").URL()` is
`https://example.com/.well-known/did.json`. -/
theorem c6_url_amended :
    (∀ u : DIDWebURL,
      (∀ c ∈ hostFn u, simpleHostChar c = true) → hostFn u ≠ [] →
      (∀ t ∈ u.parts, t ≠ [] ∧ ∀ c ∈ t, pathSafeChar c = true) →
      urlFn u = "https://".toList ++ hostFn u ++ '/' ::
        (joinWith '/' (if u.parts = [] then [".well-known".toList] else u.parts) ++
          "/did.json".toList)) ∧
    (goParse ("did:web:example.com".toList)).map urlFn =
      .ok ("https://example.com/.well-known/did.json".toList) := by
  refine ⟨?_, by decide⟩
  intro u hH hHne hparts
  simp only [urlFn]
  by_cases hnil : u.parts = []
  · rw [if_pos hnil]
    exact urlFn_clean_general (hostFn u) [".well-known".toList] hH (by simp)
      (by intro t htm; simp only [List.mem_singleton] at htm; subst htm;
          exact ⟨by decide, by decide⟩)
  · rw [if_neg hnil]
    exact urlFn_clean_general (hostFn u) u.parts hH hnil hparts

def c6WitU : DIDWebURL := ⟨"example.com".toList, ["user".toList], [], []⟩

theorem c6_url_amended_witness :
    urlFn c6WitU = "https://".toList ++ hostFn c6WitU ++ '/' ::
      (joinWith '/' (if c6WitU.parts = [] then [".well-known".toList]
        else c6WitU.parts) ++ "/did.json".toList) :=
  c6_url_amended.1 c6WitU (by decide) (by decide) (by decide)

end GoDidWeb
